import Mathlib

/-!
# ndnSIM: content-object header, Content Store telemetry, Content Store contract

Three parts, definitions first and theorems after them:

* `NDNabstraction`: `ContentObjectHeader` of `model/content-object-header.cc`.
* `Scenario`: `PrintCsMemStatsHeader`, `PrintCsMemStats` and `main` of
  `examples/ndn-simple-with-cs-lfu.cc`, over a small model of the ns-3 event
  scheduler interface the example calls (`Simulator::Schedule`, `Stop`, `Run`).
* `Cs`: the Content Store (name index, eviction policy, freshness, store
  operations).  Its implementation is not among the sources; it is modelled
  from the specification text.
-/

/-! ## Part 1: `ContentObjectHeader` -/

namespace NDNabstraction

/-- The value of a `Name::Components` object: its ordered components. -/
abbrev Components := List String

/-- An ns-3 `TypeId` as registered by `GetTypeId`: its name, the parent it was
given with `SetParent` and whether `AddConstructor` was called. -/
structure TypeId where
  name : String
  parent : String
  hasConstructor : Bool
deriving DecidableEq, Repr

/-- The header object.  `m_name` is a `Ptr<Name::Components>`; `none` is the
null pointer. -/
structure ContentObjectHeader where
  m_name : Option Components
deriving DecidableEq, Repr

/-- Embeds `ContentObjectHeader::ContentObjectHeader ()`: the body is empty, the
`Ptr` member is default-constructed, i.e. null. -/
def ContentObjectHeader.new : ContentObjectHeader :=
  { m_name := none }

/-- Embeds `ContentObjectHeader::SetName`: `m_name = name`. -/
def ContentObjectHeader.SetName (h : ContentObjectHeader) (name : Option Components) :
    ContentObjectHeader :=
  { h with m_name := name }

/-- Embeds `ContentObjectHeader::GetName`: `return *m_name`.  Dereferencing the null
pointer has no defined result, which is `none` here. -/
def ContentObjectHeader.GetName (h : ContentObjectHeader) : Option Components :=
  h.m_name

/-- Embeds `ContentObjectHeader::GetSerializedSize`: `return 0`. -/
def ContentObjectHeader.GetSerializedSize (_h : ContentObjectHeader) : Nat :=
  0

/-- Embeds `ContentObjectHeader::Serialize`: `return;`.  The result is the list of
bytes written at the iterator: nothing is written. -/
def ContentObjectHeader.Serialize (_h : ContentObjectHeader) : List Nat :=
  []

/-- Embeds `ContentObjectHeader::Deserialize`: `return 0`.  The receiving header is
left as it was and the count of consumed bytes is 0, whatever the buffer
holds. -/
def ContentObjectHeader.Deserialize (h : ContentObjectHeader) (_start : List Nat) :
    ContentObjectHeader × Nat :=
  (h, 0)

/-- Embeds `ContentObjectHeader::GetTypeId`. -/
def ContentObjectHeader.GetTypeId : TypeId :=
  { name := "ns3::NDNabstraction::ContentObjectHeader"
    parent := "Header"
    hasConstructor := true }

/-- Embeds `ContentObjectHeader::GetInstanceTypeId`: `return GetTypeId ()`. -/
def ContentObjectHeader.GetInstanceTypeId (_h : ContentObjectHeader) : TypeId :=
  ContentObjectHeader.GetTypeId

/-- Embeds `ContentObjectHeader::Print`: `os << "ContentObject: " << *m_name`.  The
stream is the text written so far; `render` is `operator<<` of
`Name::Components`, which is declared outside these sources.  With a null
`m_name` the dereference has no defined result (`none`). -/
def ContentObjectHeader.Print (render : Components → String) (h : ContentObjectHeader)
    (os : String) : Option String :=
  match h.m_name with
  | some n => some (os ++ "ContentObject: " ++ render n)
  | none => none

end NDNabstraction

/-! ## Part 2: the Content Store

The store's implementation (`ns3::ndn::cs::Freshness::Lfu` and its siblings) is
not among the sources.  Every definition of this part is modelled from the
specification: data model (section 3), name index (4.1), eviction policy
(4.2), freshness (4.3) and store operations (4.4).  Where the specification
leaves a choice open, the choice made is stated at the definition. -/

namespace Cs

/-- Modelled from the spec: a name component is an opaque byte sequence. -/
abbrev Component := List Nat

/-- Modelled from the spec: a name is an ordered sequence of components,
equal to another iff all components agree in order and count. -/
abbrev Name := List Component

/-- Modelled from the spec: an immutable byte sequence. -/
abbrev Payload := List Nat

/-! Readings of the clock source (timestamps) and freshness durations are
integers; a duration may be zero or negative, meaning "already expired at
insertion". -/

/-- Modelled from the spec: the `Entry` record of the data model. -/
structure Entry where
  id : Nat
  name : Name
  payload : Payload
  freshnessDeadline : Option Int
  insertedAt : Int
  lastAccessedAt : Int
  accessCount : Nat
deriving DecidableEq, Repr

/-! ### Name index (prefix tree) -/

/-- Modelled from the spec: the prefix tree over components behind the Name
Index.  A value of this type is a list of sibling branches: `node c v ch sib`
is the branch labelled `c`, `v` the id mapped to the name ending at that
branch, `ch` the branches below it and `sib` the remaining siblings. -/
inductive Trie where
  | nil : Trie
  | node (label : Component) (value : Option Nat) (children : Trie) (siblings : Trie) : Trie
deriving DecidableEq, Repr

/-- Modelled from the spec: descent for `lookupExact` along `c :: rest`; one
level of the tree per component. -/
def Trie.lookup : Trie → Component → List Component → Option Nat
  | .nil, _, _ => none
  | .node l v ch sib, c, rest =>
    if c = l then
      match rest with
      | [] => v
      | d :: ds => Trie.lookup ch d ds
    else Trie.lookup sib c rest

/-- Modelled from the spec: a fresh branch spelling `c :: rest` and mapping
it to `id`. -/
def Trie.path : Component → List Component → Nat → Trie
  | c, [], id => .node c (some id) .nil .nil
  | c, d :: ds, id => .node c none (Trie.path d ds id) .nil

/-- Modelled from the spec: `insert` on the tree; an already-present name has
its mapped id overwritten. -/
def Trie.insert : Trie → Component → List Component → Nat → Trie
  | .nil, c, rest, id => Trie.path c rest id
  | .node l v ch sib, c, rest, id =>
    if c = l then
      match rest with
      | [] => .node l (some id) ch sib
      | d :: ds => .node l v (Trie.insert ch d ds id) sib
    else .node l v ch (Trie.insert sib c rest id)

/-- Modelled from the spec: `remove` on the tree; removing a name that is not
present changes no mapping. -/
def Trie.remove : Trie → Component → List Component → Trie
  | .nil, _, _ => .nil
  | .node l v ch sib, c, rest =>
    if c = l then
      match rest with
      | [] => .node l none ch sib
      | d :: ds => .node l v (Trie.remove ch d ds) sib
    else .node l v ch (Trie.remove sib c rest)

/-- Modelled from the spec: the Name Index, mapping a name to the id of its
cached entry.  `root` is the id mapped to the empty name, `top` the branches
for the first component. -/
structure NameIndex where
  root : Option Nat
  top : Trie
deriving DecidableEq, Repr

/-- Modelled from the spec: the index with no name in it. -/
def NameIndex.empty : NameIndex :=
  { root := none, top := .nil }

/-- Modelled from the spec: `lookupExact(name) → id?`. -/
def NameIndex.lookupExact (ix : NameIndex) : Name → Option Nat
  | [] => ix.root
  | c :: rest => ix.top.lookup c rest

/-- Modelled from the spec: `insert(name, id)`. -/
def NameIndex.insert (ix : NameIndex) (name : Name) (id : Nat) : NameIndex :=
  match name with
  | [] => { ix with root := some id }
  | c :: rest => { ix with top := ix.top.insert c rest id }

/-- Modelled from the spec: `remove(name)`. -/
def NameIndex.remove (ix : NameIndex) (name : Name) : NameIndex :=
  match name with
  | [] => { ix with root := none }
  | c :: rest => { ix with top := ix.top.remove c rest }

/-! ### Eviction policy -/

/-- Modelled from the spec: the closed set of eviction strategies. -/
inductive PolicyKind where
  | lfu
  | lru
  | fifo
  | random
deriving DecidableEq, Repr

/-- Modelled from the spec: the policy with its metadata, keyed by entry id.
* `lfu`: `(id, counter)` pairs, in `onInsert` order;
* `lru`: ids from least to most recently used;
* `fifo`: ids from oldest to newest insertion;
* `random`: the tracked ids. -/
inductive Policy where
  | lfu (counters : List (Nat × Nat))
  | lru (order : List Nat)
  | fifo (order : List Nat)
  | random (ids : List Nat)
deriving DecidableEq, Repr

/-- Modelled from the spec: the policy of the given kind tracking nothing. -/
def Policy.init : PolicyKind → Policy
  | .lfu => .lfu []
  | .lru => .lru []
  | .fifo => .fifo []
  | .random => .random []

/-- Modelled from the spec: the kind of a policy. -/
def Policy.kind : Policy → PolicyKind
  | .lfu _ => .lfu
  | .lru _ => .lru
  | .fifo _ => .fifo
  | .random _ => .random

/-- Modelled from the spec: the ids the policy holds metadata for. -/
def Policy.tracked : Policy → List Nat
  | .lfu cs => cs.map Prod.fst
  | .lru o => o
  | .fifo o => o
  | .random ids => ids

/-- Modelled from the spec: `onInsert(id)`.  LFU initialises the counter to
zero; LRU moves the id to the most-recent end; FIFO and Random record the id
as the newest.  An id already tracked is treated as a fresh insert. -/
def Policy.onInsert (p : Policy) (id : Nat) : Policy :=
  match p with
  | .lfu cs => .lfu (cs.filter (fun c => c.1 ≠ id) ++ [(id, 0)])
  | .lru o => .lru (o.filter (fun x => x ≠ id) ++ [id])
  | .fifo o => .fifo (o.filter (fun x => x ≠ id) ++ [id])
  | .random ids => .random (ids.filter (fun x => x ≠ id) ++ [id])

/-- Modelled from the spec: `onAccess(id)`.  LFU increments the counter; LRU
moves the id to the most-recent end; FIFO and Random are unaffected. -/
def Policy.onAccess (p : Policy) (id : Nat) : Policy :=
  match p with
  | .lfu cs => .lfu (cs.map (fun c => if c.1 = id then (c.1, c.2 + 1) else c))
  | .lru o => .lru (if id ∈ o then o.filter (fun x => x ≠ id) ++ [id] else o)
  | .fifo o => .fifo o
  | .random ids => .random ids

/-- Modelled from the spec: `onRemove(id)`: the metadata of `id` is
destroyed. -/
def Policy.onRemove (p : Policy) (id : Nat) : Policy :=
  match p with
  | .lfu cs => .lfu (cs.filter (fun c => c.1 ≠ id))
  | .lru o => .lru (o.filter (fun x => x ≠ id))
  | .fifo o => .fifo (o.filter (fun x => x ≠ id))
  | .random ids => .random (ids.filter (fun x => x ≠ id))

/-- Modelled from the spec: `a` is a strictly better LFU victim than `b`:
smaller counter, or equal counter and older `insertedAt`. -/
def lfuBetter (insertedAt : Nat → Int) (a b : Nat × Nat) : Bool :=
  decide (a.2 < b.2) || (decide (a.2 = b.2) && decide (insertedAt a.1 < insertedAt b.1))

/-- Modelled from the spec: the best LFU victim among `best` and the list;
a later candidate replaces the current one only when strictly better, so a
full tie (same counter, same `insertedAt`) goes to the one tracked first. -/
def lfuMin (insertedAt : Nat → Int) : Nat × Nat → List (Nat × Nat) → Nat × Nat
  | best, [] => best
  | best, c :: cs => lfuMin insertedAt (if lfuBetter insertedAt c best then c else best) cs

/-- Modelled from the spec: `selectVictim() → id`.  `insertedAt` reads the
insertion time of an entry through its id (the policy never holds a copy of
the entry); `rand` is the draw used by the Random variant.  On a policy
tracking nothing there is no victim (`none`): the contract violation. -/
def Policy.selectVictim (p : Policy) (insertedAt : Nat → Int) (rand : Nat) : Option Nat :=
  match p with
  | .lfu [] => none
  | .lfu (c :: cs) => some (lfuMin insertedAt c cs).1
  | .lru o => o.head?
  | .fifo o => o.head?
  | .random ids => ids[rand % ids.length]?

/-! ### Freshness -/

/-- Modelled from the spec: `freshnessDeadline = insertedAt + duration`,
absent if no duration was supplied. -/
def deadlineOf (insertedAt : Int) (duration : Option Int) : Option Int :=
  duration.map (fun d => insertedAt + d)

/-- Modelled from the spec: the deadline has passed at `now`.  A query at the
deadline itself is a miss (the hit window is `[T, T+F)`). -/
def Entry.expired (e : Entry) (now : Int) : Bool :=
  match e.freshnessDeadline with
  | some d => decide (d ≤ now)
  | none => false

/-! ### Store -/

/-- Modelled from the spec: the Content Store state.  `entries` is the
mapping id → Entry, held as a list of entries with distinct ids.  `nextId` is
the id the next created entry gets (the spec leaves id allocation open). -/
structure ContentStore where
  capacity : Nat
  entries : List Entry
  nameIndex : NameIndex
  policy : Policy
  nextId : Nat
deriving DecidableEq, Repr

/-- Modelled from the spec: the empty store of the given capacity and
policy. -/
def ContentStore.empty (capacity : Nat) (kind : PolicyKind) : ContentStore :=
  { capacity := capacity, entries := [], nameIndex := NameIndex.empty,
    policy := Policy.init kind, nextId := 0 }

/-- Modelled from the spec: `size() → count`, read-only. -/
def ContentStore.size (s : ContentStore) : Nat :=
  s.entries.length

/-- Modelled from the spec: `maxSize() → capacity`, read-only. -/
def ContentStore.maxSize (s : ContentStore) : Nat :=
  s.capacity

/-- Modelled from the spec: the entry mapped to `id`, if any. -/
def ContentStore.entry (s : ContentStore) (id : Nat) : Option Entry :=
  s.entries.find? (fun e => e.id == id)

/-- Modelled from the spec: `insertedAt` of the entry with the given id, as
read by the policy for LFU tie-breaking (0 for an id that maps to nothing). -/
def ContentStore.insertedAt (s : ContentStore) (id : Nat) : Int :=
  match s.entry id with
  | some e => e.insertedAt
  | none => 0

/-- Modelled from the spec: removal of the entry `id` from all three
structures (entries, name index, policy metadata). -/
def ContentStore.removeEntry (s : ContentStore) (id : Nat) : ContentStore :=
  match s.entry id with
  | none => s
  | some e =>
    { s with
      entries := s.entries.filter (fun x => x.id != id)
      nameIndex := s.nameIndex.remove e.name
      policy := s.policy.onRemove id }

/-- Modelled from the spec: one eviction.  An expired entry is removed if one
exists (the first in `entries`; the spec does not say which), else the
policy's victim.  With nothing tracked there is no victim and the store is
returned as it is; the store never evicts in that state. -/
def ContentStore.evictOne (s : ContentStore) (now : Int) (rand : Nat) : ContentStore :=
  match s.entries.find? (fun e => e.expired now) with
  | some e => s.removeEntry e.id
  | none =>
    match s.policy.selectVictim s.insertedAt rand with
    | some id => s.removeEntry id
    | none => s

/-- Modelled from the spec: `add(name, payload, freshnessDuration?)` at clock
reading `now`.  A zero or negative duration is retained until the next
validating access (the fixed choice for section 4.3).  A new entry starts with
`lastAccessedAt = now` and `accessCount = 0`. -/
def ContentStore.add (s : ContentStore) (name : Name) (payload : Payload)
    (duration : Option Int) (now : Int) (rand : Nat) : ContentStore :=
  match s.nameIndex.lookupExact name with
  | some id =>
    { s with
      entries := s.entries.map (fun e =>
        if e.id = id then
          { e with payload := payload, freshnessDeadline := deadlineOf now duration,
                   insertedAt := now }
        else e)
      policy := s.policy.onInsert id }
  | none =>
    if s.capacity = 0 then s
    else
      let s1 := if s.entries.length = s.capacity then s.evictOne now rand else s
      let e : Entry :=
        { id := s1.nextId, name := name, payload := payload,
          freshnessDeadline := deadlineOf now duration, insertedAt := now,
          lastAccessedAt := now, accessCount := 0 }
      { s1 with
        entries := s1.entries ++ [e]
        nameIndex := s1.nameIndex.insert name e.id
        policy := s1.policy.onInsert e.id
        nextId := s1.nextId + 1 }

/-- Modelled from the spec: `lookup(name) → payload?` at clock reading `now`,
with lazy expiration.  The result is the store after the call and the payload
on a hit. -/
def ContentStore.lookup (s : ContentStore) (name : Name) (now : Int) :
    ContentStore × Option Payload :=
  match s.nameIndex.lookupExact name with
  | none => (s, none)
  | some id =>
    match s.entry id with
    | none => (s, none)
    | some e =>
      if e.expired now then (s.removeEntry id, none)
      else
        ({ s with
           entries := s.entries.map (fun x =>
             if x.id = id then
               { x with lastAccessedAt := now, accessCount := x.accessCount + 1 }
             else x)
           policy := s.policy.onAccess id },
         some e.payload)

/-- Modelled from the spec: `remove(name)`. -/
def ContentStore.remove (s : ContentStore) (name : Name) : ContentStore :=
  match s.nameIndex.lookupExact name with
  | some id => s.removeEntry id
  | none => s

/-- Modelled from the spec: the downsizing loop of `setCapacity`: evict while
occupancy exceeds the capacity.  `fuel` bounds the number of rounds; `rand`
gives the draw for each round. -/
def ContentStore.shrink : Nat → ContentStore → Int → (Nat → Nat) → ContentStore
  | 0, s, _, _ => s
  | fuel + 1, s, now, rand =>
    if s.capacity < s.entries.length then
      ContentStore.shrink fuel (s.evictOne now (rand fuel)) now rand
    else s

/-- Modelled from the spec: `setCapacity(newCapacity)` (exposed as
`setMaxSize`): synchronous downsizing, expired entries first, then policy
victims.  One round per entry held is enough fuel for the loop. -/
def ContentStore.setMaxSize (s : ContentStore) (newCapacity : Nat) (now : Int)
    (rand : Nat → Nat) : ContentStore :=
  ContentStore.shrink s.entries.length { s with capacity := newCapacity } now rand

/-- Modelled from the spec: `GetSize` as the telemetry collector calls it, in
state-passing form: the store after the call and the count read. -/
def ContentStore.GetSize (s : ContentStore) : ContentStore × Nat :=
  (s, s.size)

/-- Modelled from the spec: one call of the store interface. -/
inductive Op where
  | add (name : Name) (payload : Payload) (duration : Option Int) (now : Int)
      (rand : Nat)
  | lookup (name : Name) (now : Int)
  | remove (name : Name)
  | setMaxSize (newCapacity : Nat) (now : Int) (rand : Nat → Nat)

/-- Modelled from the spec: whether the call is a `setMaxSize`. -/
def Op.isResize : Op → Bool
  | .setMaxSize _ _ _ => true
  | _ => false

/-- Modelled from the spec: the store after one call. -/
def ContentStore.step (s : ContentStore) : Op → ContentStore
  | .add name payload duration now rand => s.add name payload duration now rand
  | .lookup name now => (s.lookup name now).1
  | .remove name => s.remove name
  | .setMaxSize k now rand => s.setMaxSize k now rand

/-- Modelled from the spec: the store after a whole sequence of calls. -/
def ContentStore.run (s : ContentStore) (ops : List Op) : ContentStore :=
  ops.foldl ContentStore.step s

/-- Modelled from the spec: the LFU counter the policy holds for `id` (0 for
an id that is not tracked or under another policy). -/
def Policy.counter (p : Policy) (id : Nat) : Nat :=
  match p with
  | .lfu cs =>
    match cs.find? (fun c => c.1 == id) with
    | some c => c.2
    | none => 0
  | _ => 0

/-- Modelled from the spec: invariants 2 and 3 of the data model, the three
structures in lockstep: the name index maps exactly the names of the entries
to their ids, ids are distinct, the policy tracks exactly the ids of the
entries (each once), and every id in use is below `nextId`. -/
structure ContentStore.Lockstep (s : ContentStore) : Prop where
  index : ∀ n id, s.nameIndex.lookupExact n = some id ↔
    ∃ e ∈ s.entries, e.id = id ∧ e.name = n
  ids : (s.entries.map Entry.id).Nodup
  tracked : ∀ id, id ∈ s.policy.tracked ↔ ∃ e ∈ s.entries, e.id = id
  trackedNodup : s.policy.tracked.Nodup
  fresh : ∀ e ∈ s.entries, e.id < s.nextId

/-- Modelled from the spec: the store invariants that hold after every
completed operation: lockstep and invariant 1, `entries.size() ≤ capacity`. -/
def ContentStore.WF (s : ContentStore) : Prop :=
  s.Lockstep ∧ s.entries.length ≤ s.capacity

/-- Three names used as concrete inputs: `/A`, `/B` and `/C/1`. -/
def nameA : Name := [[65]]

/-- See `nameA`. -/
def nameB : Name := [[66]]

/-- See `nameA`. -/
def nameC : Name := [[67], [49]]

/-- The calls of the LFU test scenario before the overflowing add:
`add (A)`, `add (B)`, `lookup (A)` three times, at clock readings 0 to 4. -/
def lfuCalls : List Op :=
  [Op.add nameA [1] none 0 0, Op.add nameB [2] none 1 0,
   Op.lookup nameA 2, Op.lookup nameA 3, Op.lookup nameA 4]

/-- The store of maximum size 2 after `lfuCalls`. -/
def lfuFull : ContentStore :=
  (ContentStore.empty 2 PolicyKind.lfu).run lfuCalls

end Cs

/-! ## Part 3: the example scenario `ndn-simple-with-cs-lfu.cc`

`PrintCsMemStatsHeader`, `PrintCsMemStats` and `main` are translated from the
example.  What they call outside the example is taken as follows:

* the ns-3 event scheduler (`Simulator::Schedule`, `Stop`, `Run`, `Now`) is a
  small model of its documented behaviour: events run in order of timestamp,
  events of equal timestamp in the order they were scheduled;
* `GetSize` of a PIT or Content Store, the wall clock, the memory probe and
  every event of the simulation other than the three the example schedules
  itself are parameters, gathered in `Env`;
* floating-point values are not interpreted: a value of type `R` stands for a
  `double`. -/

namespace Scenario

/-- Models ns-3 `Seconds (s)` for a whole number of seconds.  A simulated time
(ns-3 `Time`) is a natural number of nanoseconds, the default resolution. -/
def Seconds (s : Nat) : Nat :=
  s * 1000000000

/-- A node as `PrintCsMemStats` sees it: the result of `GetObject<ndn::Pit>`
and of `GetObject<ndn::ContentStore>`; `none` is the null pointer. -/
structure Node (P C : Type) where
  pit : Option P
  cs : Option C

/-- What the events of the simulation act on: the nodes of `NodeList` and the
two static packet counters of `ndn::L3Protocol`. -/
structure World (P C : Type) where
  nodes : List (Node P C)
  dataCounter : Nat
  interestCounter : Nat

/-- The collaborators of the example that live outside it.
* `pitGetSize`, `csGetSize`: `GetSize ()`, in state-passing form (the object
  after the call and the value returned);
* `elapsed now begin`: `gettimeofday` minus `beginRealTime`, at the invocation
  made at simulated time `now`;
* `memUsageMiB now`: `MemUsage::Get () / 1024.0 / 1024.0`;
* `other tag now w`: the handler of any other event (applications, links,
  forwarding): the world after it and the `(delay, tag)` events it
  schedules. -/
structure Env (P C R : Type) where
  pitGetSize : P → P × Nat
  csGetSize : C → C × Nat
  elapsed : Nat → R → R
  memUsageMiB : Nat → R
  other : Nat → Nat → World P C → World P C × List (Nat × Nat)

/-- One item written to the output stream with `<<`. -/
inductive Tok (R : Type) where
  | text (s : String)
  | seconds (t : Nat)
  | real (r : R)
  | count (n : Nat)

/-- What a scheduled event calls. -/
inductive EventImpl (R : Type) where
  | stop
  | printHeader
  | printStats (nextPrintTime : Nat) (beginRealTime : R)
  | other (tag : Nat)

/-- A scheduled event: timestamp, unique id (schedule order) and callee. -/
structure Event (R : Type) where
  ts : Nat
  uid : Nat
  impl : EventImpl R

/-- The simulator: current time, next event uid, pending events in execution
order, the stop flag, the world, and what was written to `std::cout`. -/
structure Simulator (P C R : Type) where
  now : Nat
  uid : Nat
  events : List (Event R)
  stopped : Bool
  world : World P C
  out : List (Tok R)

/-- Insertion into the pending events: after every event whose timestamp is
not later (the new event has the largest uid). -/
def insertEvent {R : Type} (ev : Event R) : List (Event R) → List (Event R)
  | [] => [ev]
  | e :: es => if e.ts ≤ ev.ts then e :: insertEvent ev es else ev :: e :: es

/-- Models ns-3 `Simulator::Schedule (delay, ...)`: the event fires at
`Now () + delay` and gets the next uid. -/
def Schedule {P C R : Type} (delay : Nat) (impl : EventImpl R) (s : Simulator P C R) :
    Simulator P C R :=
  { s with
    uid := s.uid + 1
    events := insertEvent { ts := s.now + delay, uid := s.uid, impl := impl } s.events }

/-- Models ns-3 `Simulator::Stop (delay)`: schedules the stop event. -/
def Stop {P C R : Type} (delay : Nat) (s : Simulator P C R) : Simulator P C R :=
  Schedule delay EventImpl.stop s

/-- Embeds `PrintCsMemStatsHeader`: the seven column titles, each followed by
a tab, the last by a newline. -/
def PrintCsMemStatsHeader {R : Type} (os : List (Tok R)) : List (Tok R) :=
  os ++ [Tok.text "SimulationTime", Tok.text "\t",
         Tok.text "RealTime", Tok.text "\t",
         Tok.text "NumberOfProcessedData", Tok.text "\t",
         Tok.text "NumberOfProcessedInterests", Tok.text "\t",
         Tok.text "NumberPitEntries", Tok.text "\t",
         Tok.text "NumberCsEntries", Tok.text "\t",
         Tok.text "MemUsage", Tok.text "\n"]

/-- The body of the loop over `NodeList` in `PrintCsMemStats`, for one node:
`counts` is `(pitCount, csCount)`, both `uint64_t`. -/
def visitNode {P C R : Type} (env : Env P C R) (node : Node P C) (counts : Nat × Nat) :
    Node P C × (Nat × Nat) :=
  let r1 : Option P × Nat :=
    match node.pit with
    | some pit => (some (env.pitGetSize pit).1, (counts.1 + (env.pitGetSize pit).2) % 2 ^ 64)
    | none => (none, counts.1)
  let r2 : Option C × Nat :=
    match node.cs with
    | some cs => (some (env.csGetSize cs).1, (counts.2 + (env.csGetSize cs).2) % 2 ^ 64)
    | none => (none, counts.2)
  ({ pit := r1.1, cs := r2.1 }, (r1.2, r2.2))

/-- The loop over `NodeList` in `PrintCsMemStats`: the nodes after the loop and
the final `(pitCount, csCount)`. -/
def visitNodes {P C R : Type} (env : Env P C R) :
    List (Node P C) → Nat × Nat → List (Node P C) × (Nat × Nat)
  | [], counts => ([], counts)
  | node :: rest, counts =>
    let r := visitNode env node counts
    let rs := visitNodes env rest r.2
    (r.1 :: rs.1, rs.2)

/-- The row `PrintCsMemStats` writes, given the counts it computed. -/
def statsRow {P C R : Type} (env : Env P C R) (beginRealTime : R) (s : Simulator P C R)
    (counts : Nat × Nat) : List (Tok R) :=
  [Tok.seconds s.now, Tok.text "\t",
   Tok.real (env.elapsed s.now beginRealTime), Tok.text "\t",
   Tok.count s.world.dataCounter, Tok.text "\t",
   Tok.count s.world.interestCounter, Tok.text "\t",
   Tok.count counts.1, Tok.text "\t",
   Tok.count counts.2, Tok.text "\t",
   Tok.real (env.memUsageMiB s.now), Tok.text "\n"]

/-- Embeds `PrintCsMemStats (os, nextPrintTime, beginRealTime)`, with `os` the
simulator's `std::cout`: write the row, then schedule the next invocation. -/
def PrintCsMemStats {P C R : Type} (env : Env P C R) (nextPrintTime : Nat) (beginRealTime : R)
    (s : Simulator P C R) : Simulator P C R :=
  let r := visitNodes env s.world.nodes (0, 0)
  let s1 : Simulator P C R :=
    { s with
      world := { s.world with nodes := r.1 }
      out := s.out ++ statsRow env beginRealTime s r.2 }
  Schedule nextPrintTime (EventImpl.printStats nextPrintTime beginRealTime) s1

/-- Scheduling of the events another event's handler asked for. -/
def scheduleOthers {P C R : Type} : List (Nat × Nat) → Simulator P C R → Simulator P C R
  | [], s => s
  | (delay, tag) :: rest, s => scheduleOthers rest (Schedule delay (EventImpl.other tag) s)

/-- Invocation of an event's callee. -/
def invoke {P C R : Type} (env : Env P C R) (impl : EventImpl R) (s : Simulator P C R) :
    Simulator P C R :=
  match impl with
  | .stop => { s with stopped := true }
  | .printHeader => { s with out := PrintCsMemStatsHeader s.out }
  | .printStats nextPrintTime beginRealTime => PrintCsMemStats env nextPrintTime beginRealTime s
  | .other tag =>
    let r := env.other tag s.now s.world
    scheduleOthers r.2 { s with world := r.1 }

/-- Models ns-3 `ProcessOneEvent`: the first pending event is removed, the clock
moves to its timestamp and its callee runs. -/
def processOneEvent {P C R : Type} (env : Env P C R) (s : Simulator P C R) : Simulator P C R :=
  match s.events with
  | [] => s
  | ev :: rest => invoke env ev.impl { s with events := rest, now := ev.ts }

/-- Models ns-3 `Simulator::Run`: process events while there is one and the stop
flag is not set; `fuel` bounds the number of events processed. -/
def Run {P C R : Type} (env : Env P C R) : Nat → Simulator P C R → Simulator P C R
  | 0, s => s
  | fuel + 1, s =>
    if s.events.isEmpty || s.stopped then s
    else Run env fuel (processOneEvent env s)

/-- A Content Store as `main` sets it up: `SetContentStore
("ns3::ndn::cs::Freshness::Lfu")` with the default maximum size 100, then
`Config::Set (".../MaxSize", UintegerValue (maxSize))` before the simulation
starts (at time 0, nothing cached yet). -/
def configuredStore (maxSize : Nat) : Cs.ContentStore :=
  (Cs.ContentStore.empty 100 Cs.PolicyKind.lfu).setMaxSize maxSize 0 (fun _ => 0)

/-- The LFU test scenario on the node configured with maximum size 2:
`add (A)`, `add (B)`, `lookup (A)` three times, `add (C)`, at the clock
readings `t1` to `t6`, no freshness duration supplied. -/
def lfuScenario (A B C : Cs.Name) (pA pB pC : Cs.Payload) (t1 t2 t3 t4 t5 t6 : Int)
    (rand : Nat) : Cs.ContentStore :=
  ((((((configuredStore 2).add A pA none t1 rand).add B pB none t2 rand).lookup A t3).1.lookup
    A t4).1.lookup A t5).1.add C pC none t6 rand

/-- The three nodes after `InstallAll` and the three `Config::Set` calls of
`main`: every node has a PIT (`pit`, as installed) and a Content Store,
with maximum sizes 1, 2 and 100000 for nodes 0, 1 and 2. -/
def installedNodes {P : Type} (pit : P) : List (Node P Cs.ContentStore) :=
  [1, 2, 100000].map (fun maxSize =>
    { pit := some pit, cs := some (configuredStore maxSize) })

/-- The simulator as `main` leaves it right before `Simulator::Run`.
`setup` are the `(delay, tag)` events the helpers scheduled while installing
the stack and the applications. -/
def main {P R : Type} (pit : P) (setup : List (Nat × Nat)) (beginRealTime : R) :
    Simulator P Cs.ContentStore R :=
  let s0 : Simulator P Cs.ContentStore R :=
    { now := 0, uid := 0, events := [], stopped := false,
      world := { nodes := installedNodes pit, dataCounter := 0, interestCounter := 0 },
      out := [] }
  let s1 := scheduleOthers setup s0
  let s2 := Stop (Seconds 200000) s1
  let s3 := Schedule (Seconds 0) EventImpl.printHeader s2
  Schedule (Seconds 100) (EventImpl.printStats (Seconds 100) beginRealTime) s3

/-- The simulated times of the rows written so far, in order. -/
def reportTimes {R : Type} : List (Tok R) → List Nat
  | [] => []
  | Tok.seconds t :: rest => t :: reportTimes rest
  | _ :: rest => reportTimes rest

/-- The column titles in a written header, in order. -/
def columnTitles {R : Type} : List (Tok R) → List String
  | [] => []
  | Tok.text s :: rest => if s = "\t" ∨ s = "\n" then columnTitles rest else s :: columnTitles rest
  | _ :: rest => columnTitles rest

/-- The sum of `GetSize ()` over the nodes that have a PIT. -/
def pitTotal {P C R : Type} (env : Env P C R) : List (Node P C) → Nat
  | [] => 0
  | node :: rest =>
    (match node.pit with
     | some pit => (env.pitGetSize pit).2
     | none => 0) + pitTotal env rest

/-- The sum of `GetSize ()` over the nodes that have a Content Store. -/
def csTotal {P C R : Type} (env : Env P C R) : List (Node P C) → Nat
  | [] => 0
  | node :: rest =>
    (match node.cs with
     | some cs => (env.csGetSize cs).2
     | none => 0) + csTotal env rest

/-- Whether the event is one of the simulation's other events (not one of the
three the example schedules itself). -/
def EventImpl.isOther {R : Type} : EventImpl R → Bool
  | .other _ => true
  | _ => false

/-- The pending events the example scheduled itself (stop, header, stats
row), as `(timestamp, callee)` in execution order. -/
def ownEvents {R : Type} (evs : List (Event R)) : List (Nat × EventImpl R) :=
  (evs.filter (fun e => !e.impl.isOther)).map (fun e => (e.ts, e.impl))

/-- Insertion by timestamp on `(timestamp, callee)` pairs, as `insertEvent`
does on events. -/
def insertOwn {R : Type} (ev : Nat × EventImpl R) :
    List (Nat × EventImpl R) → List (Nat × EventImpl R)
  | [] => [ev]
  | e :: es => if e.1 ≤ ev.1 then e :: insertOwn ev es else ev :: e :: es

/-- The times of the first `m` reports of a 100 s period starting at 100 s:
the `k`-th (counting from 1) is `Seconds (100 * k)`. -/
def expectedReports (m : Nat) : List Nat :=
  (List.range m).map (fun i => Seconds (100 * (i + 1)))

/-- The pending events of the example after `k` of them ran: before the
header (`k = 0`), between two rows, when the next row falls on the stop time
(`k = 2000`), and after the stop. -/
def phaseEvents {R : Type} (b : R) (k : Nat) : List (Nat × EventImpl R) :=
  if k = 0 then
    [(Seconds 0, EventImpl.printHeader),
     (Seconds 100, EventImpl.printStats (Seconds 100) b),
     (Seconds 200000, EventImpl.stop)]
  else if k < 2000 then
    [(Seconds (100 * k), EventImpl.printStats (Seconds 100) b),
     (Seconds 200000, EventImpl.stop)]
  else if k = 2000 then
    [(Seconds 200000, EventImpl.stop),
     (Seconds 200000, EventImpl.printStats (Seconds 100) b)]
  else
    [(Seconds 200000, EventImpl.printStats (Seconds 100) b)]

/-- Pending events are in timestamp order. -/
def SortedEvents {R : Type} (evs : List (Event R)) : Prop :=
  evs.Pairwise (fun a c => a.ts ≤ c.ts)

/-- The state of the telemetry after `k` of the example's own events ran. -/
structure TelemetryInv {P C R : Type} (b : R) (s : Simulator P C R) (k : Nat) : Prop where
  sorted : SortedEvents s.events
  reports : reportTimes s.out = expectedReports (min (k - 1) 1999)
  pending : ownEvents s.events = phaseEvents b k
  stopped : s.stopped = decide (2001 ≤ k)
  bound : k ≤ 2001

/-- No pending event other than those of the example. -/
def NoOther {P C R : Type} (s : Simulator P C R) : Prop :=
  ∀ e ∈ s.events, e.impl.isOther = false

/-- A concrete set of collaborators, used as a concrete input: a PIT is
represented by its number of entries, the Content Store accessor is the
read-only `GetSize`, no other event does anything, and the wall clock and the
memory probe are not interpreted. -/
def exampleEnv : Env Nat Cs.ContentStore Unit :=
  { pitGetSize := fun p => (p, p)
    csGetSize := Cs.ContentStore.GetSize
    elapsed := fun _ _ => ()
    memUsageMiB := fun _ => ()
    other := fun _ _ w => (w, []) }

/-- A concrete simulator state at 100 s, used as a concrete input: one node
with a PIT of 3 entries and a Content Store of 2 entries, one node with an
empty Content Store and no PIT, one node with a PIT of 4 entries and no
Content Store. -/
def exampleSim : Simulator Nat Cs.ContentStore Unit :=
  { now := Seconds 100, uid := 3, events := [], stopped := false,
    world :=
      { nodes :=
          [{ pit := some 3, cs := some Cs.lfuFull },
           { pit := none, cs := some (configuredStore 1) },
           { pit := some 4, cs := none }],
        dataCounter := 12, interestCounter := 15 },
    out := [] }

end Scenario

/-! ## Theorems, part 1: `ContentObjectHeader` -/

namespace NDNabstraction

/-- C9: for every header and every non-null name `n`, `GetName ()` after
`SetName (n)` returns exactly `n`; after any earlier sequence of `SetName`
calls (null or not) followed by `SetName (n)` it still returns `n`, the name of
the last call; and `SetName`, whatever pointer it is given, leaves
`GetSerializedSize` and `GetInstanceTypeId` unchanged. -/
theorem setName_getName (h : ContentObjectHeader) (n : Components)
    (earlier : List (Option Components)) (name : Option Components) :
    (h.SetName (some n)).GetName = some n ∧
    ((earlier.foldl ContentObjectHeader.SetName h).SetName (some n)).GetName = some n ∧
    (h.SetName name).GetSerializedSize = h.GetSerializedSize ∧
    (h.SetName name).GetInstanceTypeId = h.GetInstanceTypeId :=
  ⟨rfl, rfl, rfl, rfl⟩

/-- C10: `GetName ()` and `Print ()` have a defined result exactly when the
header holds a name.  On a default-constructed header and after `SetName` with
a null pointer both are undefined; after `SetName` with a non-null name `n`
`GetName ()` yields `n` and `Print` appends `"ContentObject: "` followed by the
rendering of `n` to the stream. -/
theorem getName_print_defined (render : Components → String) (h : ContentObjectHeader)
    (os : String) (n : Components) :
    (h.GetName.isSome = h.m_name.isSome ∧ (h.Print render os).isSome = h.m_name.isSome) ∧
    (ContentObjectHeader.new.GetName = none ∧
      ContentObjectHeader.new.Print render os = none) ∧
    ((h.SetName none).GetName = none ∧ (h.SetName none).Print render os = none) ∧
    ((h.SetName (some n)).GetName = some n ∧
      (h.SetName (some n)).Print render os = some (os ++ "ContentObject: " ++ render n)) := by
  refine ⟨⟨rfl, ?_⟩, ⟨rfl, rfl⟩, ⟨rfl, rfl⟩, ⟨rfl, rfl⟩⟩
  cases h with
  | mk m => cases m <;> rfl

/-- C6, as stated, fails: the header named `/prefix/0` is serialized to
exactly `GetSerializedSize` bytes and `Deserialize` on a fresh header returns
that byte count, but the header it produces holds no name, so `GetName ()`
is not `/prefix/0`. -/
theorem codec_roundtrip_fails :
    ¬ (((ContentObjectHeader.new.SetName (some ["prefix", "0"])).Serialize.length =
          (ContentObjectHeader.new.SetName (some ["prefix", "0"])).GetSerializedSize) ∧
        ((ContentObjectHeader.new.Deserialize
            (ContentObjectHeader.new.SetName (some ["prefix", "0"])).Serialize).2 =
          (ContentObjectHeader.new.SetName (some ["prefix", "0"])).Serialize.length) ∧
        ((ContentObjectHeader.new.Deserialize
            (ContentObjectHeader.new.SetName (some ["prefix", "0"])).Serialize).1.GetName =
          some ["prefix", "0"])) := by
  intro h
  exact absurd h.2.2 (by decide)

/-- C6, amended: for every header `h` on which `SetName (n)` was called,
`Serialize` writes exactly `GetSerializedSize` bytes, namely none;
`Deserialize` applied to those bytes returns that same byte count, 0, and
leaves the receiving header as it was, so `GetName ()` on it is whatever the
receiver already yielded: the wire format does not carry the name. -/
theorem codec_sizes_agree (h receiver : ContentObjectHeader) (n : Components) :
    (h.SetName (some n)).Serialize.length = (h.SetName (some n)).GetSerializedSize ∧
    (h.SetName (some n)).GetSerializedSize = 0 ∧
    (receiver.Deserialize (h.SetName (some n)).Serialize).2 =
      (h.SetName (some n)).Serialize.length ∧
    (receiver.Deserialize (h.SetName (some n)).Serialize).1 = receiver ∧
    (receiver.Deserialize (h.SetName (some n)).Serialize).1.GetName = receiver.GetName :=
  ⟨rfl, rfl, rfl, rfl, rfl⟩

end NDNabstraction

/-! ## Theorems, part 3: the telemetry routine -/

namespace Scenario

theorem visitNodes_counts {P C R : Type} (env : Env P C R) :
    ∀ (nodes : List (Node P C)) (a b : Nat),
      a + pitTotal env nodes < 2 ^ 64 → b + csTotal env nodes < 2 ^ 64 →
      (visitNodes env nodes (a, b)).2 = (a + pitTotal env nodes, b + csTotal env nodes) := by
  intro nodes
  induction nodes with
  | nil => intro a b _ _; simp [visitNodes, pitTotal, csTotal]
  | cons node rest ih =>
    intro a b ha hb
    obtain ⟨pit, cs⟩ := node
    cases pit with
    | none =>
      cases cs with
      | none =>
        simp only [pitTotal, csTotal, Nat.zero_add] at ha hb
        simp only [visitNodes, visitNode, pitTotal, csTotal, Nat.zero_add]
        exact ih a b ha hb
      | some c =>
        simp only [pitTotal, csTotal, Nat.zero_add] at ha hb
        have h1 : (b + (env.csGetSize c).2) % 2 ^ 64 = b + (env.csGetSize c).2 :=
          Nat.mod_eq_of_lt (by omega)
        simp only [visitNodes, visitNode, pitTotal, csTotal, Nat.zero_add, h1]
        rw [ih a (b + (env.csGetSize c).2) ha (by omega)]
        simp [Nat.add_assoc]
    | some p =>
      cases cs with
      | none =>
        simp only [pitTotal, csTotal, Nat.zero_add] at ha hb
        have h1 : (a + (env.pitGetSize p).2) % 2 ^ 64 = a + (env.pitGetSize p).2 :=
          Nat.mod_eq_of_lt (by omega)
        simp only [visitNodes, visitNode, pitTotal, csTotal, Nat.zero_add, h1]
        rw [ih (a + (env.pitGetSize p).2) b (by omega) hb]
        simp [Nat.add_assoc]
      | some c =>
        simp only [pitTotal, csTotal] at ha hb
        have h1 : (a + (env.pitGetSize p).2) % 2 ^ 64 = a + (env.pitGetSize p).2 :=
          Nat.mod_eq_of_lt (by omega)
        have h2 : (b + (env.csGetSize c).2) % 2 ^ 64 = b + (env.csGetSize c).2 :=
          Nat.mod_eq_of_lt (by omega)
        simp only [visitNodes, visitNode, pitTotal, csTotal, h1, h2]
        rw [ih (a + (env.pitGetSize p).2) (b + (env.csGetSize c).2) (by omega) (by omega)]
        simp [Nat.add_assoc]

theorem pitTotal_le {P C R : Type} (env : Env P C R) :
    ∀ (nodes : List (Node P C)),
      (∀ node ∈ nodes, ∀ p, node.pit = some p → (env.pitGetSize p).2 < 2 ^ 32) →
      pitTotal env nodes ≤ nodes.length * (2 ^ 32 - 1) := by
  intro nodes
  induction nodes with
  | nil => intro _; simp [pitTotal]
  | cons node rest ih =>
    intro h
    have hrest := ih (fun nd hnd p hp => h nd (List.mem_cons_of_mem _ hnd) p hp)
    have hnode : (match node.pit with
        | some pit => (env.pitGetSize pit).2
        | none => 0) ≤ 2 ^ 32 - 1 := by
      cases hp : node.pit with
      | none => simp
      | some p =>
        have := h node (List.mem_cons_self _ _) p hp
        simp only
        omega
    simp only [pitTotal, List.length_cons, Nat.succ_mul]
    omega

theorem csTotal_le {P C R : Type} (env : Env P C R) :
    ∀ (nodes : List (Node P C)),
      (∀ node ∈ nodes, ∀ c, node.cs = some c → (env.csGetSize c).2 < 2 ^ 32) →
      csTotal env nodes ≤ nodes.length * (2 ^ 32 - 1) := by
  intro nodes
  induction nodes with
  | nil => intro _; simp [csTotal]
  | cons node rest ih =>
    intro h
    have hrest := ih (fun nd hnd c hc => h nd (List.mem_cons_of_mem _ hnd) c hc)
    have hnode : (match node.cs with
        | some cs => (env.csGetSize cs).2
        | none => 0) ≤ 2 ^ 32 - 1 := by
      cases hc : node.cs with
      | none => simp
      | some c =>
        have := h node (List.mem_cons_self _ _) c hc
        simp only
        omega
    simp only [csTotal, List.length_cons, Nat.succ_mul]
    omega

theorem total_lt_of_length_le (total len : Nat) (h : total ≤ len * (2 ^ 32 - 1))
    (hlen : len ≤ 2 ^ 32) : 0 + total < 2 ^ 64 := by
  have h1 : len * (2 ^ 32 - 1) ≤ 2 ^ 32 * (2 ^ 32 - 1) := Nat.mul_le_mul_right _ hlen
  have h2 : 2 ^ 32 * (2 ^ 32 - 1) < 2 ^ 64 := by norm_num
  omega

theorem visitNodes_nodes {P C R : Type} (env : Env P C R)
    (hpit : ∀ p, (env.pitGetSize p).1 = p) (hcs : ∀ c, (env.csGetSize c).1 = c) :
    ∀ (nodes : List (Node P C)) (counts : Nat × Nat),
      (visitNodes env nodes counts).1 = nodes := by
  intro nodes
  induction nodes with
  | nil => intro counts; rfl
  | cons node rest ih =>
    intro counts
    obtain ⟨pit, cs⟩ := node
    cases pit <;> cases cs <;> simp [visitNodes, visitNode, ih, hpit, hcs]

/-- C8: for every list of nodes within the `uint32_t` id range of `NodeList`
whose `GetSize ()` readings are `uint32_t` values, the `(pitCount, csCount)`
pair `PrintCsMemStats` computes is the sum of `GetSize ()` over the nodes that
have a PIT and over the nodes that have a Content Store; the row it writes
carries these two values as its fifth and sixth items, the positions of the
titles `NumberPitEntries` and `NumberCsEntries` in the header; a node lacking
the object adds 0 to that total, and both totals are 0 for no nodes. -/
theorem printed_counts_are_sums {P C R : Type} (env : Env P C R) (nextPrintTime : Nat)
    (beginRealTime : R) (s : Simulator P C R)
    (hlen : s.world.nodes.length ≤ 2 ^ 32)
    (hpit : ∀ node ∈ s.world.nodes, ∀ p, node.pit = some p → (env.pitGetSize p).2 < 2 ^ 32)
    (hcs : ∀ node ∈ s.world.nodes, ∀ c, node.cs = some c → (env.csGetSize c).2 < 2 ^ 32) :
    (visitNodes env s.world.nodes (0, 0)).2 =
        (pitTotal env s.world.nodes, csTotal env s.world.nodes) ∧
    (PrintCsMemStats env nextPrintTime beginRealTime s).out =
      s.out ++
        [Tok.seconds s.now, Tok.text "\t",
         Tok.real (env.elapsed s.now beginRealTime), Tok.text "\t",
         Tok.count s.world.dataCounter, Tok.text "\t",
         Tok.count s.world.interestCounter, Tok.text "\t",
         Tok.count (pitTotal env s.world.nodes), Tok.text "\t",
         Tok.count (csTotal env s.world.nodes), Tok.text "\t",
         Tok.real (env.memUsageMiB s.now), Tok.text "\n"] ∧
    columnTitles (PrintCsMemStatsHeader ([] : List (Tok R))) =
      ["SimulationTime", "RealTime", "NumberOfProcessedData", "NumberOfProcessedInterests",
       "NumberPitEntries", "NumberCsEntries", "MemUsage"] ∧
    (∀ (cs : Option C) (rest : List (Node P C)),
      pitTotal env ({ pit := none, cs := cs } :: rest) = pitTotal env rest) ∧
    (∀ (pit : Option P) (rest : List (Node P C)),
      csTotal env ({ pit := pit, cs := none } :: rest) = csTotal env rest) ∧
    pitTotal env ([] : List (Node P C)) = 0 ∧ csTotal env ([] : List (Node P C)) = 0 := by
  have hsum : (visitNodes env s.world.nodes (0, 0)).2 =
      (pitTotal env s.world.nodes, csTotal env s.world.nodes) := by
    have h := visitNodes_counts env s.world.nodes 0 0
      (total_lt_of_length_le _ _ (pitTotal_le env _ hpit) hlen)
      (total_lt_of_length_le _ _ (csTotal_le env _ hcs) hlen)
    simpa using h
  refine ⟨hsum, ?_, ?_, ?_, ?_, rfl, rfl⟩
  · simp only [PrintCsMemStats, Schedule, statsRow, hsum]
  · simp [columnTitles, PrintCsMemStatsHeader]
  · intro cs rest; simp [pitTotal]
  · intro pit rest; simp [csTotal]

/-- C5: `PrintCsMemStats` leaves every node as it found it.  The Content
Store accessor is the read-only `size ()` of the store, which returns the
store unchanged whatever its content (expired entries included); the PIT
accessor is read-only by hypothesis, the PIT being outside the sources and
the specification.  The routine changes nothing else of the world either
(the packet counters). -/
theorem printCsMemStats_frame {P R : Type} (env : Env P Cs.ContentStore R)
    (hcs : env.csGetSize = Cs.ContentStore.GetSize)
    (hpit : ∀ p, (env.pitGetSize p).1 = p)
    (nextPrintTime : Nat) (beginRealTime : R) (s : Simulator P Cs.ContentStore R) :
    (PrintCsMemStats env nextPrintTime beginRealTime s).world = s.world ∧
    (∀ store : Cs.ContentStore, store.GetSize = (store, store.entries.length)) := by
  refine ⟨?_, fun _ => rfl⟩
  have h := visitNodes_nodes env hpit (by intro c; rw [hcs]; rfl) s.world.nodes (0, 0)
  simp only [PrintCsMemStats, Schedule, h]


theorem mem_insertEvent {R : Type} (ev x : Event R) :
    ∀ l : List (Event R), x ∈ insertEvent ev l ↔ x = ev ∨ x ∈ l := by
  intro l
  induction l with
  | nil => simp [insertEvent]
  | cons e es ih =>
    simp only [insertEvent]
    split
    · simp only [List.mem_cons, ih]
      tauto
    · simp only [List.mem_cons]

theorem sorted_insertEvent {R : Type} (ev : Event R) :
    ∀ l : List (Event R), SortedEvents l → SortedEvents (insertEvent ev l) := by
  intro l
  induction l with
  | nil => intro _; simp [insertEvent, SortedEvents]
  | cons e es ih =>
    intro h
    simp only [SortedEvents, List.pairwise_cons] at h
    simp only [insertEvent]
    split
    · rename_i hle
      simp only [SortedEvents, List.pairwise_cons]
      refine ⟨?_, ih h.2⟩
      intro x hx
      rcases (mem_insertEvent ev x es).1 hx with rfl | hx
      · exact hle
      · exact h.1 x hx
    · rename_i hlt
      simp only [SortedEvents, List.pairwise_cons]
      refine ⟨?_, h.1, h.2⟩
      intro x hx
      rcases List.mem_cons.1 hx with rfl | hx
      · omega
      · have := h.1 x hx
        omega

theorem ownEvents_insert_other {R : Type} (ev : Event R) (hev : ev.impl.isOther = true) :
    ∀ l : List (Event R), ownEvents (insertEvent ev l) = ownEvents l := by
  intro l
  induction l with
  | nil => simp [insertEvent, ownEvents, hev]
  | cons e es ih =>
    simp only [insertEvent]
    split
    · simp only [ownEvents, List.filter_cons] at ih ⊢
      split <;> simp [ih]
    · simp [ownEvents, List.filter_cons, hev]

theorem insertOwn_of_lt {R : Type} (ev : Nat × EventImpl R) :
    ∀ l : List (Nat × EventImpl R), (∀ x ∈ l, ev.1 < x.1) → insertOwn ev l = ev :: l := by
  intro l h
  cases l with
  | nil => rfl
  | cons e es =>
    have := h e (List.mem_cons_self _ _)
    simp only [insertOwn]
    rw [if_neg (by omega)]

theorem ownEvents_insert_own {R : Type} (ev : Event R) (hev : ev.impl.isOther = false) :
    ∀ l : List (Event R), SortedEvents l →
      ownEvents (insertEvent ev l) = insertOwn (ev.ts, ev.impl) (ownEvents l) := by
  intro l
  induction l with
  | nil => intro _; simp [insertEvent, ownEvents, insertOwn, hev]
  | cons e es ih =>
    intro h
    simp only [SortedEvents, List.pairwise_cons] at h
    simp only [insertEvent]
    split
    · rename_i hle
      have ih2 := ih h.2
      simp only [ownEvents, List.filter_cons] at ih2 ⊢
      split
      · simp only [List.map_cons, insertOwn, if_pos hle, ih2]
      · exact ih2
    · rename_i hlt
      have hgt : ∀ x ∈ ownEvents (e :: es), ev.ts < x.1 := by
        intro x hx
        simp only [ownEvents, List.mem_map, List.mem_filter] at hx
        obtain ⟨y, ⟨hy, _⟩, rfl⟩ := hx
        rcases List.mem_cons.1 hy with rfl | hy
        · simp only; omega
        · have := h.1 y hy
          simp only; omega
      rw [insertOwn_of_lt _ _ hgt]
      simp [ownEvents, List.filter_cons, hev]

theorem reportTimes_append {R : Type} :
    ∀ (a c : List (Tok R)), reportTimes (a ++ c) = reportTimes a ++ reportTimes c := by
  intro a c
  induction a with
  | nil => rfl
  | cons t rest ih =>
    cases t <;> simp [reportTimes, ih]

theorem expectedReports_succ (m : Nat) :
    expectedReports (m + 1) = expectedReports m ++ [Seconds (100 * (m + 1))] := by
  simp [expectedReports, List.range_succ]

theorem expectedReports_nodup (m : Nat) : (expectedReports m).Nodup := by
  unfold expectedReports
  refine List.Nodup.map ?_ (List.nodup_range m)
  intro i j h
  simp only [Seconds] at h
  omega

theorem scheduleOthers_props {P C R : Type} :
    ∀ (l : List (Nat × Nat)) (s : Simulator P C R), SortedEvents s.events →
      SortedEvents (scheduleOthers l s).events ∧
      ownEvents (scheduleOthers l s).events = ownEvents s.events ∧
      (scheduleOthers l s).out = s.out ∧
      (scheduleOthers l s).stopped = s.stopped ∧
      (scheduleOthers l s).now = s.now := by
  intro l
  induction l with
  | nil => intro s h; exact ⟨h, rfl, rfl, rfl, rfl⟩
  | cons d rest ih =>
    intro s h
    obtain ⟨delay, tag⟩ := d
    have hs : SortedEvents (Schedule delay (EventImpl.other tag) s).events :=
      sorted_insertEvent _ _ h
    obtain ⟨h1, h2, h3, h4, h5⟩ := ih (Schedule delay (EventImpl.other tag) s) hs
    refine ⟨h1, ?_, h3, h4, h5⟩
    rw [scheduleOthers, h2]
    exact ownEvents_insert_other { ts := s.now + delay, uid := s.uid, impl := EventImpl.other tag } rfl _


theorem ownEvents_cons_other {R : Type} (ev : Event R) (rest : List (Event R))
    (h : ev.impl.isOther = true) : ownEvents (ev :: rest) = ownEvents rest := by
  simp [ownEvents, List.filter_cons, h]

theorem ownEvents_cons_own {R : Type} (ev : Event R) (rest : List (Event R))
    (h : ev.impl.isOther = false) :
    ownEvents (ev :: rest) = (ev.ts, ev.impl) :: ownEvents rest := by
  simp [ownEvents, List.filter_cons, h]

theorem sorted_tail {R : Type} (ev : Event R) (rest : List (Event R))
    (h : SortedEvents (ev :: rest)) : SortedEvents rest := by
  simp only [SortedEvents, List.pairwise_cons] at h
  exact h.2

theorem inv_step_other {P C R : Type} (env : Env P C R) (b : R) (s : Simulator P C R) (k : Nat)
    (ev : Event R) (rest : List (Event R)) (hinv : TelemetryInv b s k)
    (hev : s.events = ev :: rest) (hother : ev.impl.isOther = true) :
    TelemetryInv b (processOneEvent env s) k := by
  obtain ⟨hsorted, hreports, hpending, hstopped, hbound⟩ := hinv
  rw [hev] at hsorted hpending
  rw [ownEvents_cons_other ev rest hother] at hpending
  cases himpl : ev.impl with
  | stop => rw [himpl] at hother; cases hother
  | printHeader => rw [himpl] at hother; cases hother
  | printStats n c => rw [himpl] at hother; cases hother
  | other tag =>
    have hs0 : SortedEvents rest := sorted_tail ev rest hsorted
    obtain ⟨h1, h2, h3, h4, _⟩ := scheduleOthers_props (env.other tag ev.ts s.world).2
      ({ s with events := rest, now := ev.ts, world := (env.other tag ev.ts s.world).1 } :
        Simulator P C R) hs0
    have hstep : processOneEvent env s =
        scheduleOthers (env.other tag ev.ts s.world).2
          { s with events := rest, now := ev.ts, world := (env.other tag ev.ts s.world).1 } := by
      simp only [processOneEvent, hev, invoke, himpl]
    rw [hstep]
    exact ⟨h1, by rw [h3]; exact hreports, by rw [h2]; exact hpending,
      by rw [h4]; exact hstopped, hbound⟩

theorem seconds_add (a c : Nat) : Seconds a + Seconds c = Seconds (a + c) := by
  simp only [Seconds]; omega

theorem inv_step_own {P C R : Type} (env : Env P C R) (b : R) (s : Simulator P C R) (k : Nat)
    (ev : Event R) (rest : List (Event R)) (hinv : TelemetryInv b s k)
    (hrun : s.stopped = false)
    (hev : s.events = ev :: rest) (hown : ev.impl.isOther = false) :
    TelemetryInv b (processOneEvent env s) (k + 1) := by
  obtain ⟨hsorted, hreports, hpending, hstopped, hbound⟩ := hinv
  rw [hev] at hsorted hpending
  rw [ownEvents_cons_own ev rest hown] at hpending
  have hs0 : SortedEvents rest := sorted_tail ev rest hsorted
  have hk : k ≤ 2000 := by
    rw [hrun] at hstopped
    have := of_decide_eq_false hstopped.symm
    omega
  by_cases h0 : k = 0
  · subst h0
    simp only [phaseEvents, if_true, List.cons.injEq, Prod.mk.injEq] at hpending
    obtain ⟨⟨hts, himpl⟩, hrest⟩ := hpending
    have hstep : processOneEvent env s =
        { s with events := rest, now := ev.ts, out := PrintCsMemStatsHeader s.out } := by
      simp only [processOneEvent, hev, invoke, himpl]
    rw [hstep]
    refine ⟨hs0, ?_, ?_, ?_, by omega⟩
    · simp only [PrintCsMemStatsHeader, reportTimes_append, hreports]
      simp [reportTimes, expectedReports]
    · simp only [hrest, phaseEvents]
      simp
    · simp only [hrun]; simp
  · by_cases h1 : k < 2000
    · simp only [phaseEvents, if_neg h0, if_pos h1, List.cons.injEq, Prod.mk.injEq] at hpending
      obtain ⟨⟨hts, himpl⟩, hrest⟩ := hpending
      have hstep : processOneEvent env s =
          PrintCsMemStats env (Seconds 100) b { s with events := rest, now := ev.ts } := by
        simp only [processOneEvent, hev, invoke, himpl]
      rw [hstep]
      refine ⟨?_, ?_, ?_, ?_, by omega⟩
      · exact sorted_insertEvent _ _ hs0
      · simp only [PrintCsMemStats, Schedule, statsRow, reportTimes_append, hreports]
        have hm : min (k - 1) 1999 = k - 1 := by omega
        have hm2 : min (k + 1 - 1) 1999 = (k - 1) + 1 := by omega
        rw [hm, hm2, expectedReports_succ, hts]
        have hk1 : k - 1 + 1 = k := by omega
        simp [reportTimes, hk1]
      · simp only [PrintCsMemStats, Schedule]
        rw [ownEvents_insert_own
          { ts := ev.ts + Seconds 100, uid := s.uid,
            impl := EventImpl.printStats (Seconds 100) b } rfl _ hs0, hrest]
        have hk2 : 100 * k + 100 = 100 * (k + 1) := by omega
        simp only [hts, seconds_add, insertOwn, hk2]
        by_cases h2 : k + 1 < 2000
        · have hlt : ¬ Seconds 200000 ≤ Seconds (100 * (k + 1)) := by
            simp only [Seconds]; omega
          simp only [if_neg hlt, phaseEvents, if_pos h2]
          simp
        · have hk3 : k = 1999 := by omega
          subst hk3
          simp [phaseEvents, Seconds]
      · simp only [PrintCsMemStats, Schedule, hrun]
        simp; omega
    · have hk2 : k = 2000 := by omega
      subst hk2
      simp only [phaseEvents, List.cons.injEq, Prod.mk.injEq] at hpending
      simp at hpending
      obtain ⟨⟨hts, himpl⟩, hrest⟩ := hpending
      have hstep : processOneEvent env s =
          { s with events := rest, now := ev.ts, stopped := true } := by
        simp only [processOneEvent, hev, invoke, himpl]
      rw [hstep]
      refine ⟨hs0, ?_, ?_, ?_, by omega⟩
      · simpa using hreports
      · simp only [hrest, phaseEvents]
        simp
      · simp


theorem inv_run {P C R : Type} (env : Env P C R) (b : R) :
    ∀ (fuel : Nat) (s : Simulator P C R) (k : Nat), TelemetryInv b s k →
      ∃ k2, TelemetryInv b (Run env fuel s) k2 := by
  intro fuel
  induction fuel with
  | zero => intro s k h; exact ⟨k, h⟩
  | succ fuel ih =>
    intro s k h
    simp only [Run]
    split
    · exact ⟨k, h⟩
    · rename_i hcond
      simp only [Bool.or_eq_true, not_or, Bool.not_eq_true] at hcond
      obtain ⟨hne, hrun⟩ := hcond
      cases hev : s.events with
      | nil => simp [hev] at hne
      | cons ev rest =>
        cases hother : ev.impl.isOther with
        | true => exact ih _ k (inv_step_other env b s k ev rest h hev hother)
        | false => exact ih _ (k + 1) (inv_step_own env b s k ev rest h hrun hev hother)

theorem noOther_step {P C R : Type} (env : Env P C R) (s : Simulator P C R)
    (h : NoOther s) : NoOther (processOneEvent env s) := by
  cases hev : s.events with
  | nil => simpa [processOneEvent, hev] using h
  | cons ev rest =>
    have hrest : ∀ e ∈ rest, e.impl.isOther = false := by
      intro e he
      exact h e (by rw [hev]; exact List.mem_cons_of_mem _ he)
    have hhead : ev.impl.isOther = false := h ev (by rw [hev]; exact List.mem_cons_self _ _)
    cases himpl : ev.impl with
    | stop =>
      intro e he
      simp only [processOneEvent, hev, invoke, himpl] at he
      exact hrest e he
    | printHeader =>
      intro e he
      simp only [processOneEvent, hev, invoke, himpl] at he
      exact hrest e he
    | printStats n c =>
      intro e he
      simp only [processOneEvent, hev, invoke, himpl, PrintCsMemStats, Schedule] at he
      rcases (mem_insertEvent _ e rest).1 he with rfl | he
      · rfl
      · exact hrest e he
    | other tag => rw [himpl] at hhead; cases hhead

theorem run_own {P C R : Type} (env : Env P C R) (b : R) :
    ∀ (fuel : Nat) (s : Simulator P C R) (k : Nat), TelemetryInv b s k → NoOther s →
      k + fuel ≤ 2001 → TelemetryInv b (Run env fuel s) (k + fuel) := by
  intro fuel
  induction fuel with
  | zero => intro s k h _ _; exact h
  | succ fuel ih =>
    intro s k h hno hle
    have hrun : s.stopped = false := by
      rw [h.stopped]
      exact decide_eq_false (by omega)
    cases hev : s.events with
    | nil =>
      have hp := h.pending
      rw [hev] at hp
      simp only [ownEvents, List.filter_nil, List.map_nil, phaseEvents] at hp
      split at hp
      · cases hp
      · split at hp
        · cases hp
        · split at hp <;> cases hp
    | cons ev rest =>
      have hown : ev.impl.isOther = false := hno ev (by rw [hev]; exact List.mem_cons_self _ _)
      have hstep := inv_step_own env b s k ev rest h hrun hev hown
      have hnext := ih (processOneEvent env s) (k + 1) hstep (noOther_step env s hno) (by omega)
      have hfold : Run env (fuel + 1) s = Run env fuel (processOneEvent env s) := by
        simp [Run, hev, hrun]
      rw [hfold]
      have hk : k + (fuel + 1) = k + 1 + fuel := by omega
      rw [hk]
      exact hnext

theorem main_inv {P R : Type} (pit : P) (setup : List (Nat × Nat)) (b : R) :
    TelemetryInv b (main pit setup b) 0 := by
  have hs0 : SortedEvents ([] : List (Event R)) := List.Pairwise.nil
  obtain ⟨h1, h2, h3, h4, h5⟩ := scheduleOthers_props setup
    ({ now := 0, uid := 0, events := [], stopped := false,
       world := { nodes := installedNodes pit, dataCounter := 0, interestCounter := 0 },
       out := [] } : Simulator P Cs.ContentStore R) hs0
  simp only at h2 h3 h4 h5
  have hsA := sorted_insertEvent
    ({ ts := 0 + Seconds 200000, uid := (scheduleOthers setup
          ({ now := 0, uid := 0, events := [], stopped := false,
             world := { nodes := installedNodes pit, dataCounter := 0, interestCounter := 0 },
             out := [] } : Simulator P Cs.ContentStore R)).uid,
       impl := EventImpl.stop } : Event R) _ h1
  have hsB := sorted_insertEvent
    ({ ts := 0 + Seconds 0, uid := (scheduleOthers setup
          ({ now := 0, uid := 0, events := [], stopped := false,
             world := { nodes := installedNodes pit, dataCounter := 0, interestCounter := 0 },
             out := [] } : Simulator P Cs.ContentStore R)).uid + 1,
       impl := EventImpl.printHeader } : Event R) _ hsA
  refine ⟨?_, ?_, ?_, ?_, by omega⟩
  · simp only [main, Stop, Schedule, h5]
    exact sorted_insertEvent _ _ hsB
  · simp only [main, Stop, Schedule, h3]
    rfl
  · simp only [main, Stop, Schedule, h5]
    rw [ownEvents_insert_own _ ?_ _ hsB, ownEvents_insert_own _ ?_ _ hsA,
      ownEvents_insert_own _ ?_ _ h1, h2]
    · simp [insertOwn, phaseEvents, Seconds]
    all_goals rfl
  · simp only [main, Stop, Schedule, h4]
    rfl

theorem main_noOther {P R : Type} (pit : P) (b : R) :
    NoOther (main pit ([] : List (Nat × Nat)) b) := by
  intro e he
  simp only [main, Stop, Schedule, scheduleOthers, insertEvent, Seconds] at he
  simp at he
  rcases he with rfl | rfl | rfl <;> rfl

/-- C7: the telemetry period.  (1) `main` leaves the header pending at 0 s,
the first `PrintCsMemStats` at 100 s with period argument 100 s, and the stop
at 200000 s.  (2) Every invocation of `PrintCsMemStats` adds exactly one event
to the pending ones: itself again, `nextPrintTime` after the current time, with
the same two arguments.  (3) However many events of any kind the run has
processed, the rows written so far are those of times 100 s, 200 s, ...,
`100 * m` s for some `m ≤ 1999`, the `k`-th at `100 * k` s, no time twice.
(4) Once the run has stopped, exactly the 1999 rows before 200000 s have been
written (the stop event, scheduled first, precedes the row due at 200000 s).
(5) With no other event in the simulation the run does stop, after the 2001
events of the example. -/
theorem telemetry_period {P R : Type} (env : Env P Cs.ContentStore R) (pit : P)
    (setup : List (Nat × Nat)) (b : R) :
    ownEvents (main pit setup b).events =
      [(Seconds 0, EventImpl.printHeader),
       (Seconds 100, EventImpl.printStats (Seconds 100) b),
       (Seconds 200000, EventImpl.stop)] ∧
    (∀ (nextPrintTime : Nat) (beginRealTime : R) (s : Simulator P Cs.ContentStore R),
      (PrintCsMemStats env nextPrintTime beginRealTime s).events =
        insertEvent
          { ts := s.now + nextPrintTime, uid := s.uid,
            impl := EventImpl.printStats nextPrintTime beginRealTime }
          s.events) ∧
    (∀ fuel : Nat, ∃ m, m ≤ 1999 ∧
      reportTimes (Run env fuel (main pit setup b)).out = expectedReports m ∧
      (∀ k, 1 ≤ k → k ≤ m →
        (reportTimes (Run env fuel (main pit setup b)).out)[k - 1]? =
          some (Seconds (100 * k))) ∧
      (reportTimes (Run env fuel (main pit setup b)).out).Nodup) ∧
    (∀ fuel : Nat, (Run env fuel (main pit setup b)).stopped = true →
      reportTimes (Run env fuel (main pit setup b)).out = expectedReports 1999) ∧
    ((Run env 2001 (main pit [] b)).stopped = true ∧
      reportTimes (Run env 2001 (main pit [] b)).out = expectedReports 1999) := by
  refine ⟨?_, ?_, ?_, ?_, ?_⟩
  · have h := (main_inv pit setup b).pending
    simpa [phaseEvents] using h
  · intro n c s
    rfl
  · intro fuel
    obtain ⟨k, hk⟩ := inv_run env b fuel (main pit setup b) 0 (main_inv pit setup b)
    refine ⟨min (k - 1) 1999, by omega, hk.reports, ?_, ?_⟩
    · intro j hj1 hj2
      rw [hk.reports]
      simp only [expectedReports]
      rw [List.getElem?_map, List.getElem?_range (by omega)]
      have : j - 1 + 1 = j := by omega
      simp [this]
    · rw [hk.reports]
      exact expectedReports_nodup _
  · intro fuel hstop
    obtain ⟨k, hk⟩ := inv_run env b fuel (main pit setup b) 0 (main_inv pit setup b)
    have h1 := hk.stopped
    rw [hstop] at h1
    have h2 : 2001 ≤ k := of_decide_eq_true h1.symm
    have h3 : min (k - 1) 1999 = 1999 := by omega
    rw [hk.reports, h3]
  · have h := run_own env b 2001 (main pit [] b) 0 (main_inv pit [] b) (main_noOther pit b)
      (by omega)
    refine ⟨?_, ?_⟩
    · rw [h.stopped]; simp
    · rw [h.reports]; rfl

end Scenario

/-! ## Theorems, part 2: the Content Store -/

namespace Cs

/-! ### Name index -/

theorem Trie.lookup_path (id : Nat) :
    ∀ (rest : List Component) (c : Component) (rest2 : List Component) (c2 : Component),
      (Trie.path c rest id).lookup c2 rest2 =
        if c2 :: rest2 = c :: rest then some id else none := by
  intro rest
  induction rest with
  | nil =>
    intro c rest2 c2
    simp only [Trie.path, Trie.lookup]
    by_cases hc : c2 = c
    · cases rest2 with
      | nil => simp [hc]
      | cons d ds => simp [hc, Trie.lookup]
    · simp [hc, Trie.lookup]
  | cons d ds ih =>
    intro c rest2 c2
    simp only [Trie.path, Trie.lookup]
    by_cases hc : c2 = c
    · cases rest2 with
      | nil => simp [hc]
      | cons d2 ds2 =>
        simp only [hc, if_true, ih]
        simp
    · simp [hc, Trie.lookup]

theorem Trie.lookup_insert (id : Nat) :
    ∀ (t : Trie) (c : Component) (rest : List Component) (c2 : Component)
      (rest2 : List Component),
      (t.insert c rest id).lookup c2 rest2 =
        if c2 :: rest2 = c :: rest then some id else t.lookup c2 rest2 := by
  intro t
  induction t with
  | nil =>
    intro c rest c2 rest2
    simp only [Trie.insert, Trie.lookup_path, Trie.lookup]
  | node l v ch sib ihch ihsib =>
    intro c rest c2 rest2
    simp only [Trie.insert]
    by_cases hc : c = l
    · subst hc
      cases rest with
      | nil =>
        simp only [if_true, Trie.lookup]
        by_cases hc2 : c2 = c
        · cases rest2 with
          | nil => simp [hc2]
          | cons d2 ds2 => simp [hc2]
        · simp [hc2]
      | cons d ds =>
        simp only [if_true, Trie.lookup]
        by_cases hc2 : c2 = c
        · cases rest2 with
          | nil => simp [hc2]
          | cons d2 ds2 =>
            simp only [hc2, if_true, ihch]
            simp
        · simp [hc2]
    · simp only [if_neg hc, Trie.lookup]
      by_cases hc2 : c2 = l
      · have hne : ¬ c2 = c := fun h => hc (h ▸ hc2)
        simp [hc2, hne, Ne.symm hc]
      · simp only [if_neg hc2, ihsib]

theorem Trie.lookup_remove :
    ∀ (t : Trie) (c : Component) (rest : List Component) (c2 : Component)
      (rest2 : List Component),
      (t.remove c rest).lookup c2 rest2 =
        if c2 :: rest2 = c :: rest then none else t.lookup c2 rest2 := by
  intro t
  induction t with
  | nil =>
    intro c rest c2 rest2
    simp [Trie.remove, Trie.lookup]
  | node l v ch sib ihch ihsib =>
    intro c rest c2 rest2
    simp only [Trie.remove]
    by_cases hc : c = l
    · subst hc
      cases rest with
      | nil =>
        simp only [if_true, Trie.lookup]
        by_cases hc2 : c2 = c
        · cases rest2 with
          | nil => simp [hc2]
          | cons d2 ds2 => simp [hc2]
        · simp [hc2]
      | cons d ds =>
        simp only [if_true, Trie.lookup]
        by_cases hc2 : c2 = c
        · cases rest2 with
          | nil => simp [hc2]
          | cons d2 ds2 =>
            simp only [hc2, if_true, ihch]
            simp
        · simp [hc2]
    · simp only [if_neg hc, Trie.lookup]
      by_cases hc2 : c2 = l
      · have hne : ¬ c2 = c := fun h => hc (h ▸ hc2)
        simp [hc2, hne, Ne.symm hc]
      · simp only [if_neg hc2, ihsib]

theorem NameIndex.lookupExact_empty (m : Name) : NameIndex.empty.lookupExact m = none := by
  cases m <;> rfl

theorem NameIndex.lookupExact_insert (ix : NameIndex) (n : Name) (id : Nat) (m : Name) :
    (ix.insert n id).lookupExact m = if m = n then some id else ix.lookupExact m := by
  cases n with
  | nil =>
    cases m with
    | nil => simp [NameIndex.insert, NameIndex.lookupExact]
    | cons c2 rest2 => simp [NameIndex.insert, NameIndex.lookupExact]
  | cons c rest =>
    cases m with
    | nil => simp [NameIndex.insert, NameIndex.lookupExact]
    | cons c2 rest2 =>
      simp only [NameIndex.insert, NameIndex.lookupExact, Trie.lookup_insert]

theorem NameIndex.lookupExact_remove (ix : NameIndex) (n : Name) (m : Name) :
    (ix.remove n).lookupExact m = if m = n then none else ix.lookupExact m := by
  cases n with
  | nil =>
    cases m with
    | nil => simp [NameIndex.remove, NameIndex.lookupExact]
    | cons c2 rest2 => simp [NameIndex.remove, NameIndex.lookupExact]
  | cons c rest =>
    cases m with
    | nil => simp [NameIndex.remove, NameIndex.lookupExact]
    | cons c2 rest2 =>
      simp only [NameIndex.remove, NameIndex.lookupExact, Trie.lookup_remove]


/-! ### Eviction policy -/

theorem Policy.tracked_onRemove (p : Policy) (id : Nat) :
    (p.onRemove id).tracked = p.tracked.filter (fun x => x ≠ id) := by
  cases p with
  | lfu cs =>
    simp only [Policy.onRemove, Policy.tracked, List.filter_map]
    rfl
  | lru o => rfl
  | fifo o => rfl
  | random ids => rfl

theorem Policy.tracked_onInsert (p : Policy) (id : Nat) :
    (p.onInsert id).tracked = p.tracked.filter (fun x => x ≠ id) ++ [id] := by
  cases p with
  | lfu cs =>
    simp only [Policy.onInsert, Policy.tracked, List.filter_map, List.map_append, List.map_cons,
      List.map_nil]
    rfl
  | lru o => rfl
  | fifo o => rfl
  | random ids => rfl

theorem Policy.mem_tracked_onAccess (p : Policy) (id x : Nat) :
    x ∈ (p.onAccess id).tracked ↔ x ∈ p.tracked := by
  cases p with
  | lfu cs =>
    simp only [Policy.onAccess, Policy.tracked, List.map_map]
    have : (Prod.fst ∘ fun c : Nat × Nat => if c.1 = id then (c.1, c.2 + 1) else c) = Prod.fst := by
      funext c
      simp only [Function.comp]
      split <;> rfl
    rw [this]
  | lru o =>
    simp only [Policy.onAccess, Policy.tracked]
    split
    · rename_i h
      simp only [List.mem_append, List.mem_filter, List.mem_singleton, decide_eq_true_eq]
      constructor
      · rintro (⟨h1, _⟩ | rfl)
        · exact h1
        · exact h
      · intro hx
        by_cases hxi : x = id
        · exact Or.inr hxi
        · exact Or.inl ⟨hx, hxi⟩
    · rfl
  | fifo o => rfl
  | random ids => rfl

theorem nodup_filter_append_singleton (l : List Nat) (id : Nat) (h : l.Nodup) :
    (l.filter (fun x => x ≠ id) ++ [id]).Nodup := by
  rw [List.nodup_append]
  refine ⟨h.filter _, List.nodup_singleton id, ?_⟩
  intro a ha hb
  simp only [List.mem_filter, decide_eq_true_eq] at ha
  simp only [List.mem_singleton] at hb
  exact ha.2 hb

theorem Policy.nodup_tracked_onAccess (p : Policy) (id : Nat) (h : p.tracked.Nodup) :
    (p.onAccess id).tracked.Nodup := by
  cases p with
  | lfu cs =>
    simp only [Policy.onAccess, Policy.tracked, List.map_map] at h ⊢
    have : (Prod.fst ∘ fun c : Nat × Nat => if c.1 = id then (c.1, c.2 + 1) else c) = Prod.fst := by
      funext c
      simp only [Function.comp]
      split <;> rfl
    rw [this]
    exact h
  | lru o =>
    simp only [Policy.onAccess, Policy.tracked] at h ⊢
    split
    · exact nodup_filter_append_singleton o id h
    · exact h
  | fifo o => exact h
  | random ids => exact h

theorem lfuBetter_false_iff (f : Nat → Int) (a b : Nat × Nat) :
    lfuBetter f a b = false ↔ (b.2 < a.2 ∨ (b.2 = a.2 ∧ f b.1 ≤ f a.1)) := by
  simp only [lfuBetter, Bool.or_eq_false_iff, Bool.and_eq_false_iff, decide_eq_false_iff_not]
  constructor
  · rintro ⟨h1, h2 | h2⟩
    · left; omega
    · by_cases h3 : b.2 = a.2
      · right; exact ⟨h3, by omega⟩
      · left; omega
  · rintro (h | ⟨h1, h2⟩)
    · exact ⟨by omega, Or.inl (by omega)⟩
    · exact ⟨by omega, Or.inr (by omega)⟩

theorem lfuMin_mem (f : Nat → Int) :
    ∀ (cs : List (Nat × Nat)) (best : Nat × Nat), lfuMin f best cs ∈ best :: cs := by
  intro cs
  induction cs with
  | nil => intro best; simp [lfuMin]
  | cons c cs ih =>
    intro best
    simp only [lfuMin]
    cases hb : lfuBetter f c best with
    | true =>
      simp only [if_true]
      exact List.mem_cons_of_mem _ (ih c)
    | false =>
      simp only [Bool.false_eq_true, if_false]
      rcases List.mem_cons.1 (ih best) with h | h
      · rw [h]; simp
      · exact List.mem_cons_of_mem _ (List.mem_cons_of_mem _ h)

theorem lfuMin_le (f : Nat → Int) :
    ∀ (cs : List (Nat × Nat)) (best : Nat × Nat), ∀ c ∈ best :: cs,
      lfuBetter f c (lfuMin f best cs) = false := by
  intro cs
  induction cs with
  | nil =>
    intro best c hc
    simp only [List.mem_singleton] at hc
    subst hc
    simp [lfuMin, lfuBetter]
  | cons d cs ih =>
    intro best c hc
    simp only [lfuMin]
    cases hb : lfuBetter f d best with
    | true =>
      simp only [if_true]
      have hbest := ih d
      have hself := hbest d (List.mem_cons_self _ _)
      rcases List.mem_cons.1 hc with rfl | hc
      · rw [lfuBetter_false_iff] at hself ⊢
        simp only [lfuBetter, Bool.or_eq_true, Bool.and_eq_true, decide_eq_true_eq] at hb
        omega
      · exact hbest c hc
    | false =>
      simp only [Bool.false_eq_true, if_false]
      have hbest := ih best
      have hself := hbest best (List.mem_cons_self _ _)
      rcases List.mem_cons.1 hc with rfl | hc
      · exact hself
      · rcases List.mem_cons.1 hc with rfl | hc
        · rw [lfuBetter_false_iff] at hself hb ⊢
          omega
        · exact hbest c (List.mem_cons_of_mem _ hc)

theorem Policy.selectVictim_mem (p : Policy) (f : Nat → Int) (rand id : Nat)
    (h : p.selectVictim f rand = some id) : id ∈ p.tracked := by
  cases p with
  | lfu cs =>
    cases cs with
    | nil => simp [Policy.selectVictim] at h
    | cons c cs =>
      simp only [Policy.selectVictim, Option.some.injEq] at h
      simp only [Policy.tracked]
      rw [← h]
      exact List.mem_map_of_mem _ (lfuMin_mem f cs c)
  | lru o =>
    simp only [Policy.selectVictim] at h
    exact List.mem_of_mem_head? h
  | fifo o =>
    simp only [Policy.selectVictim] at h
    exact List.mem_of_mem_head? h
  | random ids =>
    simp only [Policy.selectVictim] at h
    exact List.getElem?_mem h

theorem Policy.selectVictim_isSome (p : Policy) (f : Nat → Int) (rand : Nat)
    (h : p.tracked ≠ []) : ∃ id, p.selectVictim f rand = some id := by
  cases p with
  | lfu cs =>
    cases cs with
    | nil => simp [Policy.tracked] at h
    | cons c cs => exact ⟨_, rfl⟩
  | lru o =>
    cases o with
    | nil => simp [Policy.tracked] at h
    | cons x xs => exact ⟨x, rfl⟩
  | fifo o =>
    cases o with
    | nil => simp [Policy.tracked] at h
    | cons x xs => exact ⟨x, rfl⟩
  | random ids =>
    simp only [Policy.tracked] at h
    have hlen : 0 < ids.length := List.length_pos.2 h
    have hlt : rand % ids.length < ids.length := Nat.mod_lt _ hlen
    exact ⟨ids[rand % ids.length], by simp [Policy.selectVictim, List.getElem?_eq_getElem hlt]⟩


/-! ### Store: lockstep of entries, name index and policy -/

theorem ContentStore.entry_some (s : ContentStore) (id : Nat) (e : Entry)
    (h : s.entry id = some e) : e ∈ s.entries ∧ e.id = id := by
  refine ⟨List.mem_of_find?_eq_some h, ?_⟩
  have := List.find?_some h
  simpa using this

theorem ContentStore.entry_of_mem (s : ContentStore) (hnd : (s.entries.map Entry.id).Nodup)
    (e : Entry) (he : e ∈ s.entries) : s.entry e.id = some e := by
  cases hfind : s.entry e.id with
  | none =>
    simp only [ContentStore.entry, List.find?_eq_none] at hfind
    exact absurd (by simp) (hfind e he)
  | some e2 =>
    obtain ⟨h1, h2⟩ := s.entry_some e.id e2 hfind
    rw [List.inj_on_of_nodup_map hnd h1 he h2]

theorem ContentStore.removeEntry_eq (s : ContentStore) (hnd : (s.entries.map Entry.id).Nodup)
    (e : Entry) (he : e ∈ s.entries) :
    s.removeEntry e.id =
      { s with
        entries := s.entries.filter (fun x => x.id != e.id)
        nameIndex := s.nameIndex.remove e.name
        policy := s.policy.onRemove e.id } := by
  simp only [ContentStore.removeEntry, s.entry_of_mem hnd e he]

theorem ContentStore.lockstep_removeEntry (s : ContentStore) (h : s.Lockstep) (e : Entry)
    (he : e ∈ s.entries) : (s.removeEntry e.id).Lockstep := by
  rw [s.removeEntry_eq h.ids e he]
  refine ⟨?_, ?_, ?_, ?_, ?_⟩
  · intro n id
    simp only [NameIndex.lookupExact_remove, List.mem_filter, bne_iff_ne, ne_eq]
    by_cases hn : n = e.name
    · subst hn
      simp only [if_true]
      constructor
      · intro hc; cases hc
      · rintro ⟨x, ⟨hx, hxid⟩, _, hxn⟩
        have h1 := (h.index e.name x.id).2 ⟨x, hx, rfl, hxn⟩
        have h2 := (h.index e.name e.id).2 ⟨e, he, rfl, rfl⟩
        rw [h1] at h2
        exact absurd (Option.some.inj h2) hxid
    · simp only [if_neg hn, h.index]
      constructor
      · rintro ⟨x, hx, hxid, hxn⟩
        refine ⟨x, ⟨hx, ?_⟩, hxid, hxn⟩
        intro hid
        have := List.inj_on_of_nodup_map h.ids hx he hid
        exact hn (by rw [← hxn, this])
      · rintro ⟨x, ⟨hx, _⟩, hxid, hxn⟩
        exact ⟨x, hx, hxid, hxn⟩
  · exact h.ids.sublist ((List.filter_sublist _).map _)
  · intro id
    simp only [Policy.tracked_onRemove, List.mem_filter, decide_eq_true_eq, h.tracked,
      bne_iff_ne, ne_eq]
    constructor
    · rintro ⟨⟨x, hx, hxid⟩, hne⟩
      exact ⟨x, ⟨hx, by rw [hxid]; exact hne⟩, hxid⟩
    · rintro ⟨x, ⟨hx, hne⟩, hxid⟩
      exact ⟨⟨x, hx, hxid⟩, by rw [← hxid]; exact hne⟩
  · simp only [Policy.tracked_onRemove]
    exact h.trackedNodup.filter _
  · intro x hx
    simp only [List.mem_filter] at hx
    exact h.fresh x hx.1

theorem ContentStore.length_removeEntry (s : ContentStore) (h : s.Lockstep) (e : Entry)
    (he : e ∈ s.entries) : (s.removeEntry e.id).entries.length < s.entries.length := by
  rw [s.removeEntry_eq h.ids e he]
  simp only
  rw [List.length_filter_lt_length_iff_exists]
  exact ⟨e, he, by simp⟩

theorem ContentStore.removeEntry_fields (s : ContentStore) (id : Nat) :
    (s.removeEntry id).capacity = s.capacity ∧ (s.removeEntry id).nextId = s.nextId := by
  simp only [ContentStore.removeEntry]
  split <;> exact ⟨rfl, rfl⟩

theorem ContentStore.evictOne_cases (s : ContentStore) (h : s.Lockstep) (hne : s.entries ≠ [])
    (now : Int) (rand : Nat) :
    ∃ v ∈ s.entries, s.evictOne now rand = s.removeEntry v.id ∧
      ((v.expired now = true) ∨
        ((∀ e ∈ s.entries, e.expired now = false) ∧
          s.policy.selectVictim s.insertedAt rand = some v.id)) := by
  simp only [ContentStore.evictOne]
  cases hfind : s.entries.find? (fun e => e.expired now) with
  | some e =>
    have hexp : e.expired now = true := by
      have := List.find?_some hfind
      simpa using this
    exact ⟨e, List.mem_of_find?_eq_some hfind, rfl, Or.inl hexp⟩
  | none =>
    have hnone : ∀ e ∈ s.entries, e.expired now = false := by
      intro e he
      have := List.find?_eq_none.1 hfind e he
      simpa using this
    have htr : s.policy.tracked ≠ [] := by
      cases hl : s.entries with
      | nil => exact absurd hl hne
      | cons x xs =>
        have hx : x.id ∈ s.policy.tracked := (h.tracked x.id).2 ⟨x, by rw [hl]; simp, rfl⟩
        intro hnil
        rw [hnil] at hx
        cases hx
    obtain ⟨id, hid⟩ := s.policy.selectVictim_isSome s.insertedAt rand htr
    obtain ⟨v, hv, hvid⟩ := (h.tracked id).1 (s.policy.selectVictim_mem _ _ _ hid)
    refine ⟨v, hv, ?_, Or.inr ⟨hnone, by rw [hvid]; exact hid⟩⟩
    simp only [hid, hvid]

theorem ContentStore.lockstep_evictOne (s : ContentStore) (h : s.Lockstep) (hne : s.entries ≠ [])
    (now : Int) (rand : Nat) :
    (s.evictOne now rand).Lockstep ∧
    (s.evictOne now rand).entries.length < s.entries.length ∧
    (s.evictOne now rand).capacity = s.capacity := by
  obtain ⟨v, hv, heq, _⟩ := s.evictOne_cases h hne now rand
  rw [heq]
  exact ⟨s.lockstep_removeEntry h v hv, s.length_removeEntry h v hv,
    (s.removeEntry_fields v.id).1⟩

theorem ContentStore.lookupExact_removeEntry (s : ContentStore) (h : s.Lockstep) (e : Entry)
    (he : e ∈ s.entries) (n : Name) :
    (s.removeEntry e.id).nameIndex.lookupExact n =
      if n = e.name then none else s.nameIndex.lookupExact n := by
  rw [s.removeEntry_eq h.ids e he]
  simp only [NameIndex.lookupExact_remove]


theorem ContentStore.lockstep_update (s : ContentStore) (h : s.Lockstep) (f : Entry → Entry)
    (hid : ∀ e, (f e).id = e.id) (hname : ∀ e, (f e).name = e.name) (p : Policy)
    (hp : ∀ x, x ∈ p.tracked ↔ x ∈ s.policy.tracked) (hpn : p.tracked.Nodup) :
    ({ s with entries := s.entries.map f, policy := p } : ContentStore).Lockstep := by
  refine ⟨?_, ?_, ?_, hpn, ?_⟩
  · intro n id
    simp only [h.index, List.mem_map]
    constructor
    · rintro ⟨e, he, h1, h2⟩
      exact ⟨f e, ⟨e, he, rfl⟩, by rw [hid, h1], by rw [hname, h2]⟩
    · rintro ⟨_, ⟨e, he, rfl⟩, h1, h2⟩
      exact ⟨e, he, by rw [← hid, h1], by rw [← hname, h2]⟩
  · have : (s.entries.map f).map Entry.id = s.entries.map Entry.id := by
      rw [List.map_map]
      exact List.map_congr_left (fun e _ => hid e)
    simp only [this]
    exact h.ids
  · intro id
    simp only [hp, h.tracked, List.mem_map]
    constructor
    · rintro ⟨e, he, h1⟩
      exact ⟨f e, ⟨e, he, rfl⟩, by rw [hid, h1]⟩
    · rintro ⟨_, ⟨e, he, rfl⟩, h1⟩
      exact ⟨e, he, by rw [← hid, h1]⟩
  · intro x hx
    simp only [List.mem_map] at hx
    obtain ⟨e, he, rfl⟩ := hx
    rw [hid]
    exact h.fresh e he

theorem ContentStore.lockstep_insert (s : ContentStore) (h : s.Lockstep) (e : Entry)
    (hid : e.id = s.nextId) (hnone : s.nameIndex.lookupExact e.name = none) :
    ({ s with
       entries := s.entries ++ [e]
       nameIndex := s.nameIndex.insert e.name e.id
       policy := s.policy.onInsert e.id
       nextId := s.nextId + 1 } : ContentStore).Lockstep := by
  have hnew : ∀ x ∈ s.entries, x.id ≠ e.id := by
    intro x hx
    have := h.fresh x hx
    omega
  refine ⟨?_, ?_, ?_, ?_, ?_⟩
  · intro n id
    simp only [NameIndex.lookupExact_insert, List.mem_append, List.mem_singleton]
    by_cases hn : n = e.name
    · subst hn
      simp only [if_true, Option.some.injEq]
      constructor
      · intro hh
        exact ⟨e, Or.inr rfl, hh, rfl⟩
      · rintro ⟨x, hx | hx, h1, h2⟩
        · have := (h.index e.name x.id).2 ⟨x, hx, rfl, h2⟩
          rw [hnone] at this
          cases this
        · rw [← h1, hx]
    · simp only [if_neg hn, h.index]
      constructor
      · rintro ⟨x, hx, h1, h2⟩
        exact ⟨x, Or.inl hx, h1, h2⟩
      · rintro ⟨x, hx | hx, h1, h2⟩
        · exact ⟨x, hx, h1, h2⟩
        · exact absurd (by rw [← h2, hx]) hn
  · simp only [List.map_append, List.map_cons, List.map_nil]
    rw [List.nodup_append]
    refine ⟨h.ids, List.nodup_singleton _, ?_⟩
    intro a ha hb
    simp only [List.mem_map] at ha
    simp only [List.mem_singleton] at hb
    obtain ⟨x, hx, rfl⟩ := ha
    exact hnew x hx hb
  · intro id
    simp only [Policy.tracked_onInsert, List.mem_append, List.mem_filter, List.mem_singleton,
      decide_eq_true_eq, h.tracked]
    constructor
    · rintro (⟨⟨x, hx, h1⟩, _⟩ | rfl)
      · exact ⟨x, Or.inl hx, h1⟩
      · exact ⟨e, Or.inr rfl, rfl⟩
    · rintro ⟨x, hx | hx, h1⟩
      · exact Or.inl ⟨⟨x, hx, h1⟩, by rw [← h1]; exact hnew x hx⟩
      · exact Or.inr (by rw [← h1, hx])
  · simp only [Policy.tracked_onInsert]
    exact nodup_filter_append_singleton _ _ h.trackedNodup
  · intro x hx
    simp only [List.mem_append, List.mem_singleton] at hx
    rcases hx with hx | hx
    · have := h.fresh x hx
      simp only
      omega
    · rw [hx, hid]
      simp only
      omega

/-- The store `add` inserts the new entry into, on the path for a name that
is not present: the store itself, or the store after one eviction when it is
full. -/
theorem ContentStore.add_room (s : ContentStore) (h : s.WF) (name : Name)
    (hnone : s.nameIndex.lookupExact name = none) (hcap : s.capacity ≠ 0)
    (now : Int) (rand : Nat) :
    (if s.entries.length = s.capacity then s.evictOne now rand else s).Lockstep ∧
    (if s.entries.length = s.capacity then s.evictOne now rand else s).entries.length
      < s.capacity ∧
    (if s.entries.length = s.capacity then s.evictOne now rand else s).capacity = s.capacity ∧
    (if s.entries.length = s.capacity then s.evictOne now rand else s).nameIndex.lookupExact name
      = none := by
  by_cases hfull : s.entries.length = s.capacity
  · simp only [if_pos hfull]
    have hne : s.entries ≠ [] := by
      intro hnil
      rw [hnil] at hfull
      exact hcap hfull.symm
    obtain ⟨h1, h2, h3⟩ := s.lockstep_evictOne h.1 hne now rand
    refine ⟨h1, by omega, h3, ?_⟩
    obtain ⟨v, hv, heq, _⟩ := s.evictOne_cases h.1 hne now rand
    rw [heq, s.lookupExact_removeEntry h.1 v hv, hnone]
    simp
  · simp only [if_neg hfull]
    have := h.2
    exact ⟨h.1, by omega, trivial, hnone⟩

theorem ContentStore.add_absent (s : ContentStore) (name : Name) (payload : Payload)
    (duration : Option Int) (now : Int) (rand : Nat)
    (hnone : s.nameIndex.lookupExact name = none) (hcap : s.capacity ≠ 0) :
    s.add name payload duration now rand =
      { (if s.entries.length = s.capacity then s.evictOne now rand else s) with
        entries := (if s.entries.length = s.capacity then s.evictOne now rand else s).entries ++
          [{ id := (if s.entries.length = s.capacity then s.evictOne now rand else s).nextId,
             name := name, payload := payload,
             freshnessDeadline := deadlineOf now duration, insertedAt := now,
             lastAccessedAt := now, accessCount := 0 }]
        nameIndex := (if s.entries.length = s.capacity then s.evictOne now rand
          else s).nameIndex.insert name
            (if s.entries.length = s.capacity then s.evictOne now rand else s).nextId
        policy := (if s.entries.length = s.capacity then s.evictOne now rand
          else s).policy.onInsert
            (if s.entries.length = s.capacity then s.evictOne now rand else s).nextId
        nextId := (if s.entries.length = s.capacity then s.evictOne now rand else s).nextId
          + 1 } := by
  simp only [ContentStore.add, hnone, if_neg hcap]

theorem ContentStore.wf_add (s : ContentStore) (h : s.WF) (name : Name) (payload : Payload)
    (duration : Option Int) (now : Int) (rand : Nat) :
    (s.add name payload duration now rand).WF := by
  cases hlook : s.nameIndex.lookupExact name with
  | some id =>
    simp only [ContentStore.add, hlook]
    obtain ⟨e0, he0, hid0, _⟩ := (h.1.index name id).1 hlook
    have hin : id ∈ s.policy.tracked := (h.1.tracked id).2 ⟨e0, he0, hid0⟩
    refine ⟨s.lockstep_update h.1 _ ?_ ?_ _ ?_ ?_, ?_⟩
    · intro e; split <;> rfl
    · intro e; split <;> rfl
    · intro x
      simp only [Policy.tracked_onInsert, List.mem_append, List.mem_filter, List.mem_singleton,
        decide_eq_true_eq]
      constructor
      · rintro (⟨hx, _⟩ | rfl)
        · exact hx
        · exact hin
      · intro hx
        by_cases hxi : x = id
        · exact Or.inr hxi
        · exact Or.inl ⟨hx, hxi⟩
    · simp only [Policy.tracked_onInsert]
      exact nodup_filter_append_singleton _ _ h.1.trackedNodup
    · simp only [List.length_map]
      exact h.2
  | none =>
    by_cases hcap : s.capacity = 0
    · simp only [ContentStore.add, hlook, if_pos hcap]
      exact h
    · rw [s.add_absent name payload duration now rand hlook hcap]
      obtain ⟨h1, h2, h3, h4⟩ := s.add_room h name hlook hcap now rand
      refine ⟨ContentStore.lockstep_insert _ h1 _ rfl h4, ?_⟩
      simp only [List.length_append, List.length_singleton, h3]
      omega

theorem ContentStore.wf_removeEntry (s : ContentStore) (h : s.WF) (e : Entry)
    (he : e ∈ s.entries) : (s.removeEntry e.id).WF := by
  refine ⟨s.lockstep_removeEntry h.1 e he, ?_⟩
  have h1 := s.length_removeEntry h.1 e he
  have h2 := h.2
  rw [(s.removeEntry_fields e.id).1]
  omega

theorem ContentStore.wf_lookup (s : ContentStore) (h : s.WF) (name : Name) (now : Int) :
    (s.lookup name now).1.WF := by
  simp only [ContentStore.lookup]
  cases hlook : s.nameIndex.lookupExact name with
  | none => exact h
  | some id =>
    simp only
    cases hent : s.entry id with
    | none => exact h
    | some e =>
      obtain ⟨he, hid⟩ := s.entry_some id e hent
      simp only
      split
      · rw [← hid]
        exact s.wf_removeEntry h e he
      · refine ⟨s.lockstep_update h.1 _ ?_ ?_ _ (s.policy.mem_tracked_onAccess id)
          (s.policy.nodup_tracked_onAccess id h.1.trackedNodup), ?_⟩
        · intro x; split <;> rfl
        · intro x; split <;> rfl
        · simp only [List.length_map]
          exact h.2

theorem ContentStore.wf_remove (s : ContentStore) (h : s.WF) (name : Name) :
    (s.remove name).WF := by
  simp only [ContentStore.remove]
  cases hlook : s.nameIndex.lookupExact name with
  | none => exact h
  | some id =>
    obtain ⟨e, he, hid, _⟩ := (h.1.index name id).1 hlook
    simp only
    rw [← hid]
    exact s.wf_removeEntry h e he

theorem ContentStore.wf_shrink (now : Int) (rand : Nat → Nat) :
    ∀ (fuel : Nat) (s : ContentStore), s.Lockstep → s.entries.length ≤ s.capacity + fuel →
      (ContentStore.shrink fuel s now rand).WF ∧
      (ContentStore.shrink fuel s now rand).capacity = s.capacity := by
  intro fuel
  induction fuel with
  | zero =>
    intro s h hlen
    exact ⟨⟨h, by simpa [ContentStore.shrink] using hlen⟩, rfl⟩
  | succ fuel ih =>
    intro s h hlen
    simp only [ContentStore.shrink]
    split
    · rename_i hover
      have hne : s.entries ≠ [] := by
        intro hnil
        rw [hnil] at hover
        simp at hover
      obtain ⟨h1, h2, h3⟩ := s.lockstep_evictOne h hne now (rand fuel)
      obtain ⟨h4, h5⟩ := ih (s.evictOne now (rand fuel)) h1 (by omega)
      exact ⟨h4, by rw [h5, h3]⟩
    · rename_i hfit
      exact ⟨⟨h, by omega⟩, rfl⟩

theorem ContentStore.wf_setMaxSize (s : ContentStore) (h : s.WF) (newCapacity : Nat) (now : Int)
    (rand : Nat → Nat) :
    (s.setMaxSize newCapacity now rand).WF ∧
    (s.setMaxSize newCapacity now rand).capacity = newCapacity := by
  have hl : ({ s with capacity := newCapacity } : ContentStore).Lockstep :=
    ⟨h.1.index, h.1.ids, h.1.tracked, h.1.trackedNodup, h.1.fresh⟩
  exact ContentStore.wf_shrink now rand s.entries.length _ hl (by simp)

theorem ContentStore.wf_empty (capacity : Nat) (kind : PolicyKind) :
    (ContentStore.empty capacity kind).WF := by
  refine ⟨⟨?_, ?_, ?_, ?_, ?_⟩, ?_⟩
  · intro n id
    simp [ContentStore.empty, NameIndex.lookupExact_empty]
  · simp [ContentStore.empty]
  · intro id
    cases kind <;> simp [ContentStore.empty, Policy.init, Policy.tracked]
  · cases kind <;> simp [ContentStore.empty, Policy.init, Policy.tracked]
  · intro e he
    simp [ContentStore.empty] at he
  · simp [ContentStore.empty]

theorem ContentStore.wf_step (s : ContentStore) (h : s.WF) (op : Op) : (s.step op).WF := by
  cases op with
  | add name payload duration now rand => exact s.wf_add h name payload duration now rand
  | lookup name now => exact s.wf_lookup h name now
  | remove name => exact s.wf_remove h name
  | setMaxSize k now rand => exact (s.wf_setMaxSize h k now rand).1

theorem ContentStore.wf_run (ops : List Op) :
    ∀ (s : ContentStore), s.WF → (s.run ops).WF := by
  induction ops with
  | nil => intro s h; exact h
  | cons op ops ih =>
    intro s h
    simp only [ContentStore.run, List.foldl_cons]
    exact ih _ (s.wf_step h op)


theorem ContentStore.capacity_evictOne (s : ContentStore) (now : Int) (rand : Nat) :
    (s.evictOne now rand).capacity = s.capacity := by
  simp only [ContentStore.evictOne]
  split
  · exact (s.removeEntry_fields _).1
  · split
    · exact (s.removeEntry_fields _).1
    · rfl

theorem ContentStore.capacity_step (s : ContentStore) (op : Op) (h : op.isResize = false) :
    (s.step op).capacity = s.capacity := by
  cases op with
  | add name payload duration now rand =>
    simp only [ContentStore.step, ContentStore.add]
    split
    · rfl
    · split
      · rfl
      · simp only
        split
        · exact s.capacity_evictOne now rand
        · rfl
  | lookup name now =>
    simp only [ContentStore.step, ContentStore.lookup]
    split
    · rfl
    · split
      · rfl
      · split
        · exact (s.removeEntry_fields _).1
        · rfl
  | remove name =>
    simp only [ContentStore.step, ContentStore.remove]
    split
    · exact (s.removeEntry_fields _).1
    · rfl
  | setMaxSize k now rand => cases h

theorem ContentStore.capacity_run (ops : List Op) :
    ∀ (s : ContentStore), (∀ op ∈ ops, op.isResize = false) → (s.run ops).capacity = s.capacity := by
  induction ops with
  | nil => intro s _; rfl
  | cons op ops ih =>
    intro s h
    simp only [ContentStore.run, List.foldl_cons]
    have h1 := ih (s.step op) (fun o ho => h o (List.mem_cons_of_mem _ ho))
    simp only [ContentStore.run] at h1
    rw [h1, s.capacity_step op (h op (List.mem_cons_self _ _))]

theorem configuredStore_eq (maxSize : Nat) :
    Scenario.configuredStore maxSize = ContentStore.empty maxSize PolicyKind.lfu := rfl

theorem ContentStore.scenario_bound (maxSize : Nat) (ops : List Op) (n : Nat) :
    ((Scenario.configuredStore maxSize).run
        ((ops.filter (fun op => !op.isResize)).take n)).size ≤ maxSize := by
  have hwf := ContentStore.wf_run ((ops.filter (fun op => !op.isResize)).take n)
    (Scenario.configuredStore maxSize)
    (by rw [configuredStore_eq]; exact ContentStore.wf_empty _ _)
  have hcap := ContentStore.capacity_run ((ops.filter (fun op => !op.isResize)).take n)
    (Scenario.configuredStore maxSize)
    (by
      intro op hop
      have h1 := List.mem_of_mem_take hop
      simp only [List.mem_filter] at h1
      simpa using h1.2)
  have h2 := hwf.2
  rw [hcap] at h2
  exact h2

/-- C1: for every sequence of Content Store calls (add, lookup, remove,
setMaxSize) on a store that starts empty, with any capacity and any policy,
`size () ≤ maxSize ()` holds after each call: the store after the first `n`
calls satisfies it, for every `n`.  The stores of the scenario are those
configured with maximum sizes 1, 2 and 100000; under any sequence of add,
lookup and remove calls (the calls left once resizes are dropped) their entry
counts stay within 1, 2 and 100000 after each call. -/
theorem size_le_maxSize (capacity : Nat) (kind : PolicyKind) (ops : List Op) (n : Nat) :
    ((ContentStore.empty capacity kind).run (ops.take n)).size ≤
      ((ContentStore.empty capacity kind).run (ops.take n)).maxSize ∧
    ((Scenario.installedNodes ()).map (fun node => node.cs) =
      [some (Scenario.configuredStore 1), some (Scenario.configuredStore 2),
       some (Scenario.configuredStore 100000)]) ∧
    ((Scenario.configuredStore 1).run
        ((ops.filter (fun op => !op.isResize)).take n)).size ≤ 1 ∧
    ((Scenario.configuredStore 2).run
        ((ops.filter (fun op => !op.isResize)).take n)).size ≤ 2 ∧
    ((Scenario.configuredStore 100000).run
        ((ops.filter (fun op => !op.isResize)).take n)).size ≤ 100000 :=
  ⟨(ContentStore.wf_run (ops.take n) _ (ContentStore.wf_empty capacity kind)).2, rfl,
    ContentStore.scenario_bound 1 ops n, ContentStore.scenario_bound 2 ops n,
    ContentStore.scenario_bound 100000 ops n⟩


/-- C3: the stores the scenario configures with maximum sizes 1 and 100000,
two distinct names `A` and `B`, no freshness duration.  On the size-1 store
`size ()` is 1 after `add (A)` and 1 after `add (B)`, and `lookup (A)` then
misses; on the size-100000 store the same two adds leave `size ()` at 2 and
`lookup (A)` and `lookup (B)` both hit, at any later clock reading. -/
theorem two_names_scenario (A B : Name) (hAB : A ≠ B) (pA pB : Payload) (tA tB t : Int)
    (rA rB : Nat) :
    ((Scenario.configuredStore 1).maxSize = 1 ∧
      (Scenario.configuredStore 100000).maxSize = 100000) ∧
    ((Scenario.configuredStore 1).add A pA none tA rA).size = 1 ∧
    (((Scenario.configuredStore 1).add A pA none tA rA).add B pB none tB rB).size = 1 ∧
    ((((Scenario.configuredStore 1).add A pA none tA rA).add B pB none tB rB).lookup A t).2
      = none ∧
    (((Scenario.configuredStore 100000).add A pA none tA rA).add B pB none tB rB).size = 2 ∧
    ((((Scenario.configuredStore 100000).add A pA none tA rA).add B pB none tB rB).lookup A t).2
      = some pA ∧
    ((((Scenario.configuredStore 100000).add A pA none tA rA).add B pB none tB rB).lookup B t).2
      = some pB := by
  have hBA : B ≠ A := Ne.symm hAB
  simp only [configuredStore_eq]
  refine ⟨⟨rfl, rfl⟩, ?_, ?_, ?_, ?_, ?_, ?_⟩
  · simp [ContentStore.add, ContentStore.empty, NameIndex.lookupExact_empty, ContentStore.size]
  · simp [ContentStore.add, ContentStore.empty, NameIndex.lookupExact_empty, ContentStore.size,
      NameIndex.lookupExact_insert, hBA, ContentStore.evictOne, Entry.expired, deadlineOf,
      Policy.init, Policy.onInsert, Policy.selectVictim, lfuMin, ContentStore.removeEntry,
      ContentStore.entry]
  · simp [ContentStore.add, ContentStore.empty, NameIndex.lookupExact_empty,
      NameIndex.lookupExact_insert, NameIndex.lookupExact_remove, hBA, hAB,
      ContentStore.evictOne, Entry.expired, deadlineOf, Policy.init, Policy.onInsert,
      Policy.selectVictim, lfuMin, ContentStore.removeEntry, ContentStore.entry,
      ContentStore.lookup]
  · simp [ContentStore.add, ContentStore.empty, NameIndex.lookupExact_empty, ContentStore.size,
      NameIndex.lookupExact_insert, hBA]
  · simp [ContentStore.add, ContentStore.empty, NameIndex.lookupExact_empty,
      NameIndex.lookupExact_insert, hBA, hAB, Entry.expired, deadlineOf, Policy.init,
      Policy.onInsert, ContentStore.entry, ContentStore.lookup]
  · simp [ContentStore.add, ContentStore.empty, NameIndex.lookupExact_empty,
      NameIndex.lookupExact_insert, hBA, hAB, Entry.expired, deadlineOf, Policy.init,
      Policy.onInsert, ContentStore.entry, ContentStore.lookup]

/-- Witness for C3, at the names `/prefix/0` and `/prefix/1` (components as
their ASCII bytes). -/
theorem two_names_scenario_witness :
    ([[112, 114, 101, 102, 105, 120], [48]] : Name) ≠ [[112, 114, 101, 102, 105, 120], [49]] ∧
    (((Scenario.configuredStore 1).add [[112, 114, 101, 102, 105, 120], [48]] [7] none 0
        0).add [[112, 114, 101, 102, 105, 120], [49]] [8] none 1 0).size = 1 ∧
    ((((Scenario.configuredStore 1).add [[112, 114, 101, 102, 105, 120], [48]] [7] none 0
        0).add [[112, 114, 101, 102, 105, 120], [49]] [8] none 1 0).lookup
        [[112, 114, 101, 102, 105, 120], [48]] 2).2 = none :=
  ⟨by decide,
    (two_names_scenario [[112, 114, 101, 102, 105, 120], [48]]
      [[112, 114, 101, 102, 105, 120], [49]] (by decide) [7] [8] 0 1 2 0 0).2.2.1,
    (two_names_scenario [[112, 114, 101, 102, 105, 120], [48]]
      [[112, 114, 101, 102, 105, 120], [49]] (by decide) [7] [8] 0 1 2 0 0).2.2.2.1⟩

/-! ### LFU victim selection -/

theorem Policy.kind_onInsert (p : Policy) (id : Nat) : (p.onInsert id).kind = p.kind := by
  cases p <;> rfl

theorem Policy.kind_onAccess (p : Policy) (id : Nat) : (p.onAccess id).kind = p.kind := by
  cases p <;> rfl

theorem Policy.kind_onRemove (p : Policy) (id : Nat) : (p.onRemove id).kind = p.kind := by
  cases p <;> rfl

theorem ContentStore.kind_removeEntry (s : ContentStore) (id : Nat) :
    (s.removeEntry id).policy.kind = s.policy.kind := by
  simp only [ContentStore.removeEntry]
  split
  · rfl
  · exact Policy.kind_onRemove _ _

theorem ContentStore.kind_evictOne (s : ContentStore) (now : Int) (rand : Nat) :
    (s.evictOne now rand).policy.kind = s.policy.kind := by
  simp only [ContentStore.evictOne]
  split
  · exact s.kind_removeEntry _
  · split
    · exact s.kind_removeEntry _
    · rfl

theorem ContentStore.kind_shrink (now : Int) (rand : Nat → Nat) :
    ∀ (fuel : Nat) (s : ContentStore),
      (ContentStore.shrink fuel s now rand).policy.kind = s.policy.kind := by
  intro fuel
  induction fuel with
  | zero => intro s; rfl
  | succ fuel ih =>
    intro s
    simp only [ContentStore.shrink]
    split
    · rw [ih, s.kind_evictOne]
    · rfl

theorem ContentStore.kind_step (s : ContentStore) (op : Op) :
    (s.step op).policy.kind = s.policy.kind := by
  cases op with
  | add name payload duration now rand =>
    simp only [ContentStore.step, ContentStore.add]
    split
    · exact Policy.kind_onInsert _ _
    · split
      · rfl
      · simp only [Policy.kind_onInsert]
        split
        · exact s.kind_evictOne now rand
        · rfl
  | lookup name now =>
    simp only [ContentStore.step, ContentStore.lookup]
    split
    · rfl
    · split
      · rfl
      · split
        · exact s.kind_removeEntry _
        · exact Policy.kind_onAccess _ _
  | remove name =>
    simp only [ContentStore.step, ContentStore.remove]
    split
    · exact s.kind_removeEntry _
    · rfl
  | setMaxSize k now rand =>
    simp only [ContentStore.step, ContentStore.setMaxSize]
    rw [ContentStore.kind_shrink]

theorem ContentStore.kind_run (ops : List Op) :
    ∀ (s : ContentStore), (s.run ops).policy.kind = s.policy.kind := by
  induction ops with
  | nil => intro s; rfl
  | cons op ops ih =>
    intro s
    simp only [ContentStore.run, List.foldl_cons]
    have h1 := ih (s.step op)
    simp only [ContentStore.run] at h1
    rw [h1, s.kind_step op]

theorem Policy.counter_of_mem (cs : List (Nat × Nat)) (hnd : (cs.map Prod.fst).Nodup)
    (c : Nat × Nat) (hc : c ∈ cs) : (Policy.lfu cs).counter c.1 = c.2 := by
  simp only [Policy.counter]
  cases hfind : cs.find? (fun x => x.1 == c.1) with
  | none =>
    rw [List.find?_eq_none] at hfind
    exact absurd (by simp) (hfind c hc)
  | some d =>
    have h1 : d ∈ cs := List.mem_of_find?_eq_some hfind
    have h2 : d.1 = c.1 := by
      have := List.find?_some hfind
      simpa using this
    rw [List.inj_on_of_nodup_map hnd h1 hc h2]

theorem ContentStore.insertedAt_of_mem (s : ContentStore)
    (hnd : (s.entries.map Entry.id).Nodup) (e : Entry) (he : e ∈ s.entries) :
    s.insertedAt e.id = e.insertedAt := by
  simp only [ContentStore.insertedAt, s.entry_of_mem hnd e he]


theorem ContentStore.lfu_victim (s : ContentStore) (h : s.WF)
    (hkind : s.policy.kind = PolicyKind.lfu) (hfull : s.entries.length = s.capacity)
    (hcap : s.capacity ≠ 0) (name : Name) (hnew : s.nameIndex.lookupExact name = none)
    (now : Int) (hfresh : ∀ e ∈ s.entries, e.expired now = false)
    (payload : Payload) (duration : Option Int) (rand : Nat) (t : Int) :
    ∃ v ∈ s.entries,
      (∀ e ∈ s.entries,
        s.policy.counter v.id < s.policy.counter e.id ∨
        (s.policy.counter v.id = s.policy.counter e.id ∧ v.insertedAt ≤ e.insertedAt)) ∧
      (s.add name payload duration now rand).entries =
        s.entries.filter (fun x => x.id != v.id) ++
          [{ id := s.nextId, name := name, payload := payload,
             freshnessDeadline := deadlineOf now duration, insertedAt := now,
             lastAccessedAt := now, accessCount := 0 }] ∧
      ((s.add name payload duration now rand).lookup v.name t).2 = none := by
  have hne : s.entries ≠ [] := by
    intro hnil
    rw [hnil] at hfull
    exact hcap hfull.symm
  obtain ⟨v, hv, heq, hwhy⟩ := s.evictOne_cases h.1 hne now rand
  have hsel : s.policy.selectVictim s.insertedAt rand = some v.id := by
    rcases hwhy with hexp | ⟨_, hsel⟩
    · rw [hfresh v hv] at hexp
      cases hexp
    · exact hsel
  have hvname : v.name ≠ name := by
    intro hvn
    have := (h.1.index name v.id).2 ⟨v, hv, rfl, hvn⟩
    rw [hnew] at this
    cases this
  refine ⟨v, hv, ?_, ?_, ?_⟩
  · intro e he
    cases hp : s.policy with
    | lfu cs =>
      have hnd : (cs.map Prod.fst).Nodup := by
        have := h.1.trackedNodup
        rw [hp] at this
        exact this
      rw [hp] at hsel
      cases cs with
      | nil => simp [Policy.selectVictim] at hsel
      | cons c cs2 =>
        simp only [Policy.selectVictim, Option.some.injEq] at hsel
        have hm := lfuMin_mem s.insertedAt cs2 c
        have hcv := Policy.counter_of_mem (c :: cs2) hnd _ hm
        rw [hsel] at hcv
        have hetr : e.id ∈ (Policy.lfu (c :: cs2)).tracked := by
          rw [← hp]
          exact (h.1.tracked e.id).2 ⟨e, he, rfl⟩
        simp only [Policy.tracked, List.mem_map] at hetr
        obtain ⟨ce, hce, hceid⟩ := hetr
        have hcc := Policy.counter_of_mem (c :: cs2) hnd ce hce
        rw [hceid] at hcc
        have hle := lfuMin_le s.insertedAt cs2 c ce hce
        rw [lfuBetter_false_iff, hsel, hceid, s.insertedAt_of_mem h.1.ids v hv,
          s.insertedAt_of_mem h.1.ids e he] at hle
        rw [hcv, hcc]
        exact hle
    | lru o => rw [hp] at hkind; cases hkind
    | fifo o => rw [hp] at hkind; cases hkind
    | random ids => rw [hp] at hkind; cases hkind
  · rw [s.add_absent name payload duration now rand hnew hcap]
    simp only [if_pos hfull, heq, s.removeEntry_eq h.1.ids v hv]
  · rw [s.add_absent name payload duration now rand hnew hcap]
    simp only [if_pos hfull, heq, s.removeEntry_eq h.1.ids v hv, ContentStore.lookup,
      NameIndex.lookupExact_insert, NameIndex.lookupExact_remove, if_neg hvname, if_true]

theorem lfuScenario_eq (A B C : Name) (hAB : A ≠ B) (hAC : A ≠ C) (hBC : B ≠ C)
    (pA pB pC : Payload) (t1 t2 t3 t4 t5 t6 : Int) (rand : Nat) :
    Scenario.lfuScenario A B C pA pB pC t1 t2 t3 t4 t5 t6 rand =
      { capacity := 2
        entries :=
          [{ id := 0, name := A, payload := pA, freshnessDeadline := none, insertedAt := t1,
             lastAccessedAt := t5, accessCount := 3 },
           { id := 2, name := C, payload := pC, freshnessDeadline := none, insertedAt := t6,
             lastAccessedAt := t6, accessCount := 0 }]
        nameIndex := (((NameIndex.empty.insert A 0).insert B 1).remove B).insert C 2
        policy := Policy.lfu [(0, 3), (2, 0)]
        nextId := 3 } := by
  have hBA : B ≠ A := Ne.symm hAB
  have hCA : C ≠ A := Ne.symm hAC
  have hCB : C ≠ B := Ne.symm hBC
  simp [Scenario.lfuScenario, configuredStore_eq, ContentStore.add, ContentStore.empty,
    NameIndex.lookupExact_empty, NameIndex.lookupExact_insert, NameIndex.lookupExact_remove,
    hBA, hAB, hCA, hCB, hBC, hAC, ContentStore.evictOne, Entry.expired, deadlineOf, Policy.init,
    Policy.onInsert, Policy.onAccess, Policy.onRemove, Policy.selectVictim, lfuMin, lfuBetter,
    ContentStore.removeEntry, ContentStore.entry, ContentStore.lookup]

/-- C4: LFU victim selection.  Let `s` be any store reached from an empty LFU
store, full (`size () = maxSize ()`, not 0) and holding no entry expired at
`now`, and let `name` be a name it does not hold.  Then `add (name)` at `now`
evicts one entry `v` whose LFU counter is the minimum over the entries, and
whose `insertedAt` is the oldest among those with that counter; the entries
afterwards are the others followed by the new one, and `lookup` of the name of
`v` misses.  In the scenario with maximum size 2 and distinct names `A`, `B`,
`C`: after `add (A)`, `add (B)`, `lookup (A)` three times and `add (C)`, the
store holds exactly `A` and `C`, `lookup (B)` misses and `lookup (A)` and
`lookup (C)` hit. -/
theorem lfu_eviction (capacity : Nat) (ops : List Op) (s : ContentStore)
    (hs : s = (ContentStore.empty capacity PolicyKind.lfu).run ops)
    (hfull : s.size = s.maxSize) (hcap : s.maxSize ≠ 0)
    (name : Name) (hnew : s.nameIndex.lookupExact name = none)
    (now : Int) (hfresh : ∀ e ∈ s.entries, e.expired now = false)
    (payload : Payload) (duration : Option Int) (rand : Nat) (t : Int)
    (A B C : Name) (hAB : A ≠ B) (hAC : A ≠ C) (hBC : B ≠ C)
    (pA pB pC : Payload) (t1 t2 t3 t4 t5 t6 : Int) :
    (∃ v ∈ s.entries,
      (∀ e ∈ s.entries,
        s.policy.counter v.id < s.policy.counter e.id ∨
        (s.policy.counter v.id = s.policy.counter e.id ∧ v.insertedAt ≤ e.insertedAt)) ∧
      (s.add name payload duration now rand).entries =
        s.entries.filter (fun x => x.id != v.id) ++
          [{ id := s.nextId, name := name, payload := payload,
             freshnessDeadline := deadlineOf now duration, insertedAt := now,
             lastAccessedAt := now, accessCount := 0 }] ∧
      ((s.add name payload duration now rand).lookup v.name t).2 = none) ∧
    ((Scenario.lfuScenario A B C pA pB pC t1 t2 t3 t4 t5 t6 rand).entries.map Entry.name
        = [A, C] ∧
      ((Scenario.lfuScenario A B C pA pB pC t1 t2 t3 t4 t5 t6 rand).lookup B t).2 = none ∧
      ((Scenario.lfuScenario A B C pA pB pC t1 t2 t3 t4 t5 t6 rand).lookup A t).2 = some pA ∧
      ((Scenario.lfuScenario A B C pA pB pC t1 t2 t3 t4 t5 t6 rand).lookup C t).2 = some pC) := by
  constructor
  · have hwf : s.WF := by
      rw [hs]
      exact ContentStore.wf_run ops _ (ContentStore.wf_empty capacity PolicyKind.lfu)
    have hkind : s.policy.kind = PolicyKind.lfu := by
      rw [hs, ContentStore.kind_run]
      rfl
    exact s.lfu_victim hwf hkind hfull hcap name hnew now hfresh payload duration rand t
  · rw [lfuScenario_eq A B C hAB hAC hBC]
    refine ⟨rfl, ?_, ?_, ?_⟩
    · simp [ContentStore.lookup, NameIndex.lookupExact_insert, NameIndex.lookupExact_remove, hBC,
        NameIndex.lookupExact_empty]
    · simp [ContentStore.lookup, NameIndex.lookupExact_insert, NameIndex.lookupExact_remove, hAB,
        hAC, NameIndex.lookupExact_empty, ContentStore.entry, Entry.expired]
    · simp [ContentStore.lookup, NameIndex.lookupExact_insert, NameIndex.lookupExact_remove, hAB,
        hAC, NameIndex.lookupExact_empty, ContentStore.entry, Entry.expired]


/-- Witness for C4: the LFU test scenario at the names `/A`, `/B`, `/C/1`.
The store after `lfuCalls` is full and holds nothing expired; `add (/C/1)` at
clock reading 5 evicts a minimum-counter entry. -/
theorem lfu_eviction_witness :
    (lfuFull.size = lfuFull.maxSize ∧ lfuFull.maxSize ≠ 0 ∧
      lfuFull.nameIndex.lookupExact nameC = none ∧
      (∀ e ∈ lfuFull.entries, e.expired 5 = false) ∧
      nameA ≠ nameB ∧ nameA ≠ nameC ∧ nameB ≠ nameC) ∧
    ((∃ v ∈ lfuFull.entries,
      (∀ e ∈ lfuFull.entries,
        lfuFull.policy.counter v.id < lfuFull.policy.counter e.id ∨
        (lfuFull.policy.counter v.id = lfuFull.policy.counter e.id ∧
          v.insertedAt ≤ e.insertedAt)) ∧
      (lfuFull.add nameC [3] none 5 0).entries =
        lfuFull.entries.filter (fun x => x.id != v.id) ++
          [{ id := lfuFull.nextId, name := nameC, payload := [3],
             freshnessDeadline := deadlineOf 5 none, insertedAt := 5,
             lastAccessedAt := 5, accessCount := 0 }] ∧
      ((lfuFull.add nameC [3] none 5 0).lookup v.name 6).2 = none) ∧
    ((Scenario.lfuScenario nameA nameB nameC [1] [2] [3] 0 1 2 3 4 5 0).entries.map Entry.name
        = [nameA, nameC] ∧
      ((Scenario.lfuScenario nameA nameB nameC [1] [2] [3] 0 1 2 3 4 5 0).lookup nameB 6).2
        = none ∧
      ((Scenario.lfuScenario nameA nameB nameC [1] [2] [3] 0 1 2 3 4 5 0).lookup nameA 6).2
        = some [1] ∧
      ((Scenario.lfuScenario nameA nameB nameC [1] [2] [3] 0 1 2 3 4 5 0).lookup nameC 6).2
        = some [3])) :=
  ⟨⟨by decide, by decide, by decide, by decide, by decide, by decide, by decide⟩,
    lfu_eviction 2 lfuCalls lfuFull rfl (by decide) (by decide) nameC (by decide) 5 (by decide)
      [3] none 0 6 nameA nameB nameC (by decide) (by decide) (by decide) [1] [2] [3]
      0 1 2 3 4 5⟩

/-! ### Freshness window -/

theorem ContentStore.nextId_evictOne (s : ContentStore) (now : Int) (rand : Nat) :
    (s.evictOne now rand).nextId = s.nextId := by
  simp only [ContentStore.evictOne]
  split
  · exact (s.removeEntry_fields _).2
  · split
    · exact (s.removeEntry_fields _).2
    · rfl

end Cs

namespace Scenario

/-- Witness for C8: a state with three nodes, one lacking a PIT and one
lacking a Content Store; the totals are 7 PIT entries and 2 Content Store
entries. -/
theorem printed_counts_are_sums_witness :
    (exampleSim.world.nodes.length ≤ 2 ^ 32 ∧
      (∀ node ∈ exampleSim.world.nodes, ∀ p, node.pit = some p →
        (exampleEnv.pitGetSize p).2 < 2 ^ 32) ∧
      (∀ node ∈ exampleSim.world.nodes, ∀ c, node.cs = some c →
        (exampleEnv.csGetSize c).2 < 2 ^ 32)) ∧
    (visitNodes exampleEnv exampleSim.world.nodes (0, 0)).2 =
      (pitTotal exampleEnv exampleSim.world.nodes, csTotal exampleEnv exampleSim.world.nodes) ∧
    pitTotal exampleEnv exampleSim.world.nodes = 7 ∧
    csTotal exampleEnv exampleSim.world.nodes = 2 := by
  have hpit : ∀ node ∈ exampleSim.world.nodes, ∀ p, node.pit = some p →
      (exampleEnv.pitGetSize p).2 < 2 ^ 32 := by
    intro node hn p hp
    simp only [exampleSim, List.mem_cons, List.mem_singleton, List.not_mem_nil, or_false] at hn
    rcases hn with rfl | rfl | rfl
    · cases hp; decide
    · cases hp
    · cases hp; decide
  have hcs : ∀ node ∈ exampleSim.world.nodes, ∀ c, node.cs = some c →
      (exampleEnv.csGetSize c).2 < 2 ^ 32 := by
    intro node hn c hc
    simp only [exampleSim, List.mem_cons, List.mem_singleton, List.not_mem_nil, or_false] at hn
    rcases hn with rfl | rfl | rfl
    · cases hc; decide
    · cases hc; decide
    · cases hc
  exact ⟨⟨by decide, hpit, hcs⟩,
    (printed_counts_are_sums exampleEnv (Seconds 100) () exampleSim (by decide) hpit hcs).1,
    by decide, by decide⟩

/-- Witness for C5: the routine run on a state whose second Content Store is
full and on the example collaborators leaves the world as it was. -/
theorem printCsMemStats_frame_witness :
    (exampleEnv.csGetSize = Cs.ContentStore.GetSize ∧
      (∀ p, (exampleEnv.pitGetSize p).1 = p)) ∧
    (PrintCsMemStats exampleEnv (Seconds 100) () exampleSim).world = exampleSim.world :=
  ⟨⟨rfl, fun _ => rfl⟩,
    (printCsMemStats_frame exampleEnv rfl (fun _ => rfl) (Seconds 100) () exampleSim).1⟩

/-- Witness for C7: with the example collaborators and no other event, the
run stops after the 2001 events of the example with the 1999 rows written. -/
theorem telemetry_period_witness :
    (Run exampleEnv 2001 (main 7 [] ())).stopped = true ∧
    reportTimes (Run exampleEnv 2001 (main 7 [] ())).out = expectedReports 1999 :=
  (telemetry_period exampleEnv 7 [] ()).2.2.2.2

end Scenario
